import Mathlib

/-!
Shallow embedding of src/src/pr_tree.c (path reduction tree, cf Gonnet 1983).

Keys and datums are C `void*` values, modelled as natural numbers; 0 plays the
role of the null pointer.  Each tree node stores its weight field exactly as
the C struct does; `WEIGHT` is the macro from pr_tree.c line 29 (an absent
child weighs 1).  Stateful parent pointers are modelled functionally: tree
operations are functions on subtrees, and the iterator parent chain is a
zipper context.  `weight_t` (unsigned long) and `unsigned count` are modelled
as `Nat`; no operation below ever exceeds, or subtracts past, the bounds that
the C invariants guarantee.
-/

namespace PrTree

/-- A `pr_node` from pr_tree.c lines 19-27, minus the parent pointer (which is
represented by the zipper context `Ctx` below where it is needed). -/
inductive PNode where
  | nil : PNode
  | node (llink : PNode) (key : Nat) (datum : Nat) (weight : Nat) (rlink : PNode) : PNode
deriving DecidableEq, Repr

/-- The WEIGHT macro, pr_tree.c line 29: a missing child counts as 1. -/
def WEIGHT : PNode → Nat
  | .nil => 1
  | .node _ _ _ w _ => w

/-- Left child of a node (`n->llink`); nil on nil. -/
def llink : PNode → PNode
  | .nil => .nil
  | .node l _ _ _ _ => l

/-- Right child of a node (`n->rlink`); nil on nil. -/
def rlink : PNode → PNode
  | .nil => .nil
  | .node _ _ _ _ r => r

/-- Number of real (internal) nodes of a subtree. -/
def size : PNode → Nat
  | .nil => 0
  | .node l _ _ _ r => size l + size r + 1

/-- In-order list of (key, datum) pairs. -/
def inorder : PNode → List (Nat × Nat)
  | .nil => []
  | .node l k d _ r => inorder l ++ (k, d) :: inorder r

/-- In-order list of keys. -/
def keys (t : PNode) : List Nat := (inorder t).map Prod.fst

/-- `dict_ptr_cmp`: the default comparator substituted by `pr_tree_new` when
the caller passes a null comparator; it orders keys by their raw pointer
value.  Modelled from the spec: the function itself lives in dict.c, which is
not part of this repository snapshot; the spec describes it as comparing the
key addresses. -/
def dict_ptr_cmp (a b : Nat) : Int :=
  if a < b then -1 else if b < a then 1 else 0

/-- `rot_left` from pr_tree.c lines 693-721, as a function on the rotated
subtree.  Rebuilding the two rotated nodes with recomputed weights is exactly
the two REWEIGH calls; all three subtrees A, C, E are untouched.  A node
without a right child is returned unchanged (the C code asserts this never
happens). -/
def rot_left : PNode → PNode
  | .node l k d _ (.node rl rk rd _ rr) =>
    .node (.node l k d (WEIGHT l + WEIGHT rl) rl) rk rd (WEIGHT l + WEIGHT rl + WEIGHT rr) rr
  | n => n

/-- `rot_right` from pr_tree.c lines 736-764, mirror image of `rot_left`. -/
def rot_right : PNode → PNode
  | .node (.node ll lk ld _ lr) k d _ r =>
    .node ll lk ld (WEIGHT ll + (WEIGHT lr + WEIGHT r)) (.node lr k d (WEIGHT lr + WEIGHT r) r)
  | n => n

/-- `fixup` from pr_tree.c lines 166-231 (equally the FIXUP macro).  The
`goto again` loop keeps following the node object as rotations demote it, so
functionally every `goto again` becomes a recursive call on the subtree now
rooted at that node; the explicit recursive call of the double rotation
branches (`fixup(temp->rlink)`, `fixup(temp->llink)`) appears verbatim.  The
weights written into the rebuilt nodes are the REWEIGH values computed at
rotation time.  The branches matching a nil child under a heavier weight are
unreachable when stored weights are consistent and return the node
unchanged. -/
def fixup : PNode → PNode
  | .nil => .nil
  | .node l k d w r =>
    if WEIGHT r > WEIGHT l then
      match r with
      | .nil => .node l k d w .nil
      | .node rl rk rd rw rr =>
        if WEIGHT rr > WEIGHT l then
          .node (fixup (.node l k d (WEIGHT l + WEIGHT rl) rl)) rk rd
            (WEIGHT l + WEIGHT rl + WEIGHT rr) rr
        else if WEIGHT rl > WEIGHT l then
          match rl with
          | .nil => .node l k d w (.node .nil rk rd rw rr)
          | .node rll rlk rld _ rlr =>
            .node (fixup (.node l k d (WEIGHT l + WEIGHT rll) rll)) rlk rld
              (WEIGHT l + WEIGHT rll + (WEIGHT rlr + WEIGHT rr))
              (.node rlr rk rd (WEIGHT rlr + WEIGHT rr) (fixup rr))
        else
          .node l k d w (.node rl rk rd rw rr)
    else if WEIGHT l > WEIGHT r then
      match l with
      | .nil => .node .nil k d w r
      | .node ll lk ld lw lr =>
        if WEIGHT ll > WEIGHT r then
          .node ll lk ld (WEIGHT ll + (WEIGHT lr + WEIGHT r))
            (fixup (.node lr k d (WEIGHT lr + WEIGHT r) r))
        else if WEIGHT lr > WEIGHT r then
          match lr with
          | .nil => .node (.node ll lk ld lw .nil) k d w r
          | .node lrl lrk lrd _ lrr =>
            .node (.node (fixup ll) lk ld (WEIGHT ll + WEIGHT lrl) lrl) lrk lrd
              (WEIGHT ll + WEIGHT lrl + (WEIGHT lrr + WEIGHT r))
              (fixup (.node lrr k d (WEIGHT lrr + WEIGHT r) r))
        else
          .node (.node ll lk ld lw lr) k d w r
    else
      .node l k d w r
termination_by n => size n
decreasing_by all_goals simp [size]; omega

/-- `node_new` from pr_tree.c lines 564-580: a fresh leaf with weight 2. -/
def node_new (key datum : Nat) : PNode :=
  .node .nil key datum 2 .nil

/-- The descent and rebalancing walk of `pr_tree_insert` (pr_tree.c lines
273-321) as one recursion.  Result is (new subtree, return value, grew?):
the Bool records whether a node was created, which in the C code decides
whether the `node->weight++; FIXUP` walk over the ancestors runs.  The
`allocOk` flag models whether `node_new`'s MALLOC succeeds. -/
def insert_go (key datum : Nat) (overwrite : Bool) (allocOk : Bool) :
    PNode → PNode × Int × Bool
  | .nil =>
    if allocOk then (node_new key datum, 0, true) else (.nil, -1, false)
  | .node l k d w r =>
    let rv := dict_ptr_cmp key k
    if rv < 0 then
      let res := insert_go key datum overwrite allocOk l
      (if res.2.2 then fixup (.node res.1 k d (w + 1) r) else .node res.1 k d w r, res.2)
    else if rv > 0 then
      let res := insert_go key datum overwrite allocOk r
      (if res.2.2 then fixup (.node l k d (w + 1) res.1) else .node l k d w res.1, res.2)
    else
      if overwrite then (.node l key datum w r, 0, false)
      else (.node l k d w r, 1, false)

/-- The descent of `pr_tree_probe` (pr_tree.c lines 323-366).  Result is
(new subtree, return value, value slot after the call, grew?).  On a hit the
slot is overwritten with the stored datum and the tree is untouched; on a
miss a node carrying the supplied datum is created and the same
weight-increment-and-FIXUP walk as in insert runs. -/
def probe_go (key datum : Nat) (allocOk : Bool) :
    PNode → PNode × Int × Nat × Bool
  | .nil =>
    if allocOk then (node_new key datum, 1, datum, true) else (.nil, -1, datum, false)
  | .node l k d w r =>
    let rv := dict_ptr_cmp key k
    if rv < 0 then
      let res := probe_go key datum allocOk l
      (if res.2.2.2 then fixup (.node res.1 k d (w + 1) r) else .node res.1 k d w r, res.2)
    else if rv > 0 then
      let res := probe_go key datum allocOk r
      (if res.2.2.2 then fixup (.node l k d (w + 1) res.1) else .node l k d w res.1, res.2)
    else
      (.node l k d w r, 0, d, false)

/-- Size of the three untouched subtrees is preserved by a rotation. -/
theorem size_rot_left (n : PNode) : size (rot_left n) = size n := by
  unfold rot_left
  split <;> simp [size] <;> omega

/-- Mirror of `size_rot_left`. -/
theorem size_rot_right (n : PNode) : size (rot_right n) = size n := by
  unfold rot_right
  split <;> simp [size] <;> omega

/-- Sizes across the optional corrective left rotation in the removal loop. -/
theorem size_of_corrective_left {p : Prop} [Decidable p]
    {ll lk ld lw lr a xk xd aw b}
    (h : (if p then rot_left (.node ll lk ld lw lr) else .node ll lk ld lw lr) =
      PNode.node a xk xd aw b) :
    size a + size b = size ll + size lr := by
  split at h
  · have hs := size_rot_left (.node ll lk ld lw lr)
    rw [h] at hs
    simp [size] at hs
    omega
  · injection h with h1 h2 h3 h4 h5
    subst h1; subst h5
    rfl

/-- Sizes across the optional corrective right rotation in the removal loop. -/
theorem size_of_corrective_right {p : Prop} [Decidable p]
    {rl rk rd rw rr a xk xd aw b}
    (h : (if p then rot_right (.node rl rk rd rw rr) else .node rl rk rd rw rr) =
      PNode.node a xk xd aw b) :
    size a + size b = size rl + size rr := by
  split at h
  · have hs := size_rot_right (.node rl rk rd rw rr)
    rw [h] at hs
    simp [size] at hs
    omega
  · injection h with h1 h2 h3 h4 h5
    subst h1; subst h5
    rfl

/-- The body of `pr_tree_remove` (pr_tree.c lines 368-444) once the key's
node has been located, covering the three cases at lines 384-441.  The C
loop keeps operating on the same node object after each rotate-down step
(`node = out->rlink` and `node = out->llink` point back at it), so the
two-children cases become recursive calls on the demoted node.  The result
already includes the `temp->weight--` decrements that the final splice
applies to every remaining ancestor inside this subtree. -/
def delNode : PNode → PNode
  | .nil => .nil
  | .node l k d w r =>
    match l, r with
    | .nil, _ => r
    | .node ll lk ld lw lr, .nil => .node ll lk ld lw lr
    | .node ll lk ld lw lr, .node rl rk rd rw rr =>
      if WEIGHT (.node ll lk ld lw lr) > WEIGHT (.node rl rk rd rw rr) then
        match h : (if WEIGHT ll < WEIGHT lr
            then rot_left (.node ll lk ld lw lr) else .node ll lk ld lw lr) with
        | .nil => .nil
        | .node a xk xd _ b =>
          .node a xk xd (WEIGHT a + (WEIGHT b + WEIGHT (.node rl rk rd rw rr)) - 1)
            (delNode (.node b k d (WEIGHT b + WEIGHT (.node rl rk rd rw rr)) (.node rl rk rd rw rr)))
      else
        match h : (if WEIGHT rr < WEIGHT rl
            then rot_right (.node rl rk rd rw rr) else .node rl rk rd rw rr) with
        | .nil => .nil
        | .node b xk xd _ c =>
          .node (delNode (.node (.node ll lk ld lw lr) k d
              (WEIGHT (.node ll lk ld lw lr) + WEIGHT b) b))
            xk xd (WEIGHT (.node ll lk ld lw lr) + WEIGHT b + WEIGHT c - 1) c
termination_by n => size n
decreasing_by
  all_goals
    first
    | (have hs := size_of_corrective_left h
       simp [size] at *
       omega)
    | (have hs := size_of_corrective_right h
       simp [size] at *
       omega)

/-- The search loop of `pr_tree_remove` (pr_tree.c lines 377-442): descend by
the comparator, decrementing the weight of every node on a successful path
(the `for (; temp; temp = temp->parent) temp->weight--` walk after the
splice), and hand the located node to `delNode`.  `none` models the final
`return -1`. -/
def remove_go (key : Nat) : PNode → Option PNode
  | .nil => none
  | .node l k d w r =>
    let rv := dict_ptr_cmp key k
    if rv < 0 then
      (remove_go key l).map (fun l' => .node l' k d (w - 1) r)
    else if rv > 0 then
      (remove_go key r).map (fun r' => .node l k d (w - 1) r')
    else
      some (delNode (.node l k d w r))

/-- The search loop of `pr_tree_search` (pr_tree.c lines 138-158): returns
the stored datum on a hit and the null pointer (0) otherwise. -/
def search_node (key : Nat) : PNode → Nat
  | .nil => 0
  | .node l k d _ r =>
    let rv := dict_ptr_cmp key k
    if rv < 0 then search_node key l
    else if rv > 0 then search_node key r
    else d

/-- The `pr_tree` struct (pr_tree.c lines 32-37) minus the comparator and
deleter fields: the comparator used throughout is `dict_ptr_cmp` and the
deleter callbacks only manage foreign memory. -/
structure pr_tree where
  root : PNode
  count : Nat
deriving DecidableEq, Repr

/-- `pr_tree_insert` (pr_tree.c lines 273-321) at the tree level, returning
the updated tree and the int return value (0 inserted or replaced,
1 duplicate with overwrite off, -1 allocation failure). -/
def pr_tree_insert (tree : pr_tree) (key datum : Nat) (overwrite : Bool)
    (allocOk : Bool) : pr_tree × Int :=
  let res := insert_go key datum overwrite allocOk tree.root
  (⟨res.1, if res.2.2 then tree.count + 1 else tree.count⟩, res.2.1)

/-- `pr_tree_probe` (pr_tree.c lines 323-366) at the tree level, returning
the updated tree, the int return value and the in/out datum slot. -/
def pr_tree_probe (tree : pr_tree) (key datum : Nat) (allocOk : Bool) :
    pr_tree × Int × Nat :=
  let res := probe_go key datum allocOk tree.root
  (⟨res.1, if res.2.2.2 then tree.count + 1 else tree.count⟩, res.2.1, res.2.2.1)

/-- `pr_tree_remove` (pr_tree.c lines 368-444) at the tree level. -/
def pr_tree_remove (tree : pr_tree) (key : Nat) : pr_tree × Int :=
  match remove_go key tree.root with
  | none => (tree, -1)
  | some rt => (⟨rt, tree.count - 1⟩, 0)

/-- `pr_tree_search` (pr_tree.c lines 138-158) at the tree level. -/
def pr_tree_search (tree : pr_tree) (key : Nat) : Nat :=
  search_node key tree.root

/-- `pr_tree_empty` (pr_tree.c lines 446-481): frees everything, resets root
and count, returns the former count. -/
def pr_tree_empty (tree : pr_tree) : pr_tree × Nat :=
  (⟨.nil, 0⟩, tree.count)

/-- The rotate-down step of the two-children case of `pr_tree_remove`
(pr_tree.c lines 429-441): the subtree at which the deletion loop continues
after one corrective-rotation-plus-rotate-down iteration (the node the C
variable `node` points at after `node = out->rlink` or
`node = out->llink`). -/
def remove_descend : PNode → PNode
  | .nil => .nil
  | .node l k d w r =>
    match l, r with
    | .nil, _ => .node .nil k d w r
    | .node ll lk ld lw lr, .nil => .node (.node ll lk ld lw lr) k d w .nil
    | .node ll lk ld lw lr, .node rl rk rd rw rr =>
      if WEIGHT (.node ll lk ld lw lr) > WEIGHT (.node rl rk rd rw rr) then
        match (if WEIGHT ll < WEIGHT lr
            then rot_left (.node ll lk ld lw lr) else .node ll lk ld lw lr) with
        | .nil => .nil
        | .node _ _ _ _ b =>
          .node b k d (WEIGHT b + WEIGHT (.node rl rk rd rw rr)) (.node rl rk rd rw rr)
      else
        match (if WEIGHT rr < WEIGHT rl
            then rot_right (.node rl rk rd rw rr) else .node rl rk rd rw rr) with
        | .nil => .nil
        | .node b _ _ _ _ =>
          .node (.node ll lk ld lw lr) k d (WEIGHT (.node ll lk ld lw lr) + WEIGHT b) b

/-- The weight invariant: every stored weight equals the sum of the child
weights, an absent child counting as 1 (spec section 3). -/
def weightOk : PNode → Bool
  | .nil => true
  | .node l _ _ w r => (w == WEIGHT l + WEIGHT r) && weightOk l && weightOk r

/-- The path-reduction balance condition at a single node (spec section 3):
if one side is heavier, neither child of the heavier side may outweigh the
lighter side. -/
def balAt : PNode → Bool
  | .nil => true
  | .node l _ _ _ r =>
    (!(WEIGHT r > WEIGHT l) || (WEIGHT (rlink r) ≤ WEIGHT l && WEIGHT (llink r) ≤ WEIGHT l)) &&
    (!(WEIGHT l > WEIGHT r) || (WEIGHT (llink l) ≤ WEIGHT r && WEIGHT (rlink l) ≤ WEIGHT r))

/-- The path-reduction balance condition at every node of a subtree. -/
def bal : PNode → Bool
  | .nil => true
  | .node l k d w r => balAt (.node l k d w r) && bal l && bal r

/-- The binary search tree ordering invariant, with respect to the
comparator order of `dict_ptr_cmp`. -/
def bst : PNode → Bool
  | .nil => true
  | .node l k _ _ r =>
    (keys l).all (fun x => x < k) && (keys r).all (fun x => k < x) && bst l && bst r

/-! ### Small constructor-level simp lemmas -/

@[simp] theorem WEIGHT_nil : WEIGHT .nil = 1 := rfl

@[simp] theorem WEIGHT_node {l r : PNode} {k d w : Nat} : WEIGHT (.node l k d w r) = w := rfl

@[simp] theorem llink_nil : llink .nil = .nil := rfl

@[simp] theorem llink_node {l r : PNode} {k d w : Nat} : llink (.node l k d w r) = l := rfl

@[simp] theorem rlink_nil : rlink .nil = .nil := rfl

@[simp] theorem rlink_node {l r : PNode} {k d w : Nat} : rlink (.node l k d w r) = r := rfl

@[simp] theorem size_nil : size .nil = 0 := rfl

@[simp] theorem size_node {l r : PNode} {k d w : Nat} :
    size (.node l k d w r) = size l + size r + 1 := rfl

@[simp] theorem inorder_nil : inorder .nil = [] := rfl

@[simp] theorem inorder_node {l r : PNode} {k d w : Nat} :
    inorder (.node l k d w r) = inorder l ++ (k, d) :: inorder r := rfl

@[simp] theorem weightOk_nil : weightOk .nil = true := rfl

/-! ### Comparator facts -/

theorem dcmp_lt {a b : Nat} : dict_ptr_cmp a b < 0 ↔ a < b := by
  unfold dict_ptr_cmp
  split <;> simp_all <;> omega

theorem dcmp_gt {a b : Nat} : dict_ptr_cmp a b > 0 ↔ b < a := by
  unfold dict_ptr_cmp
  split <;> (try split) <;> simp_all <;> omega

theorem dcmp_eq {a b : Nat} (h1 : ¬ dict_ptr_cmp a b < 0) (h2 : ¬ dict_ptr_cmp a b > 0) :
    a = b := by
  rw [dcmp_lt] at h1
  rw [dcmp_gt] at h2
  omega

/-! ### Rotation lemmas -/

theorem inorder_rot_left (n : PNode) : inorder (rot_left n) = inorder n := by
  unfold rot_left
  split <;> simp [inorder]

theorem inorder_rot_right (n : PNode) : inorder (rot_right n) = inorder n := by
  unfold rot_right
  split <;> simp [inorder]

@[simp] theorem weightOk_node {l r : PNode} {k d w : Nat} :
    weightOk (.node l k d w r) = true ↔
      w = WEIGHT l + WEIGHT r ∧ weightOk l = true ∧ weightOk r = true := by
  simp [weightOk, Bool.and_eq_true, and_assoc]

/-- Under the weight invariant the stored weight is the external leaf count. -/
theorem weight_eq_size {n : PNode} (h : weightOk n = true) : WEIGHT n = size n + 1 := by
  induction n with
  | nil => rfl
  | node l k d w r ihl ihr =>
    rw [weightOk_node] at h
    have h1 := ihl h.2.1
    have h2 := ihr h.2.2
    show w = size (.node l k d w r) + 1
    rw [h.1, h1, h2]
    simp [size]
    omega

theorem weightOk_rot_left {n : PNode} (h : weightOk n = true) :
    weightOk (rot_left n) = true ∧ WEIGHT (rot_left n) = WEIGHT n := by
  unfold rot_left
  split
  · next l k d w rl rk rd rw rr =>
    rw [weightOk_node, weightOk_node] at h
    obtain ⟨hw, hl, hr⟩ := h
    obtain ⟨hrw, hrl, hrr⟩ := hr
    refine ⟨?_, ?_⟩
    · rw [weightOk_node, weightOk_node]
      exact ⟨rfl, ⟨rfl, hl, hrl⟩, hrr⟩
    · simp [WEIGHT, hw, hrw]
      omega
  · exact ⟨h, rfl⟩

theorem weightOk_rot_right {n : PNode} (h : weightOk n = true) :
    weightOk (rot_right n) = true ∧ WEIGHT (rot_right n) = WEIGHT n := by
  unfold rot_right
  split
  · next ll lk ld lw lr k d w r =>
    rw [weightOk_node, weightOk_node] at h
    obtain ⟨hw, hl, hr⟩ := h
    obtain ⟨hlw, hll, hlr⟩ := hl
    refine ⟨?_, ?_⟩
    · rw [weightOk_node, weightOk_node]
      exact ⟨rfl, hll, rfl, hlr, hr⟩
    · simp [WEIGHT, hw, hlw]
      omega
  · exact ⟨h, rfl⟩

/-! ### fixup branch unfolding lemmas -/

theorem fixup_nil : fixup .nil = .nil := by
  rw [fixup.eq_def]

theorem fixup_rnil {l : PNode} {k d w : Nat} (hg : WEIGHT (.nil : PNode) > WEIGHT l) :
    fixup (.node l k d w .nil) = .node l k d w .nil := by
  rw [fixup.eq_def]
  simp_all

theorem fixup_LL {l rl rr : PNode} {k d w rk rd rw : Nat}
    (hout : WEIGHT (.node rl rk rd rw rr) > WEIGHT l) (hrr : WEIGHT rr > WEIGHT l) :
    fixup (.node l k d w (.node rl rk rd rw rr)) =
      .node (fixup (.node l k d (WEIGHT l + WEIGHT rl) rl)) rk rd
        (WEIGHT l + WEIGHT rl + WEIGHT rr) rr := by
  rw [fixup.eq_def]
  simp_all

theorem fixup_RL {l rll rlr rr : PNode} {k d w rk rd rw rlk rld rlw : Nat}
    (hout : WEIGHT (.node (.node rll rlk rld rlw rlr) rk rd rw rr) > WEIGHT l)
    (hnrr : ¬ WEIGHT rr > WEIGHT l)
    (hrl : WEIGHT (.node rll rlk rld rlw rlr) > WEIGHT l) :
    fixup (.node l k d w (.node (.node rll rlk rld rlw rlr) rk rd rw rr)) =
      .node (fixup (.node l k d (WEIGHT l + WEIGHT rll) rll)) rlk rld
        (WEIGHT l + WEIGHT rll + (WEIGHT rlr + WEIGHT rr))
        (.node rlr rk rd (WEIGHT rlr + WEIGHT rr) (fixup rr)) := by
  rw [fixup.eq_def]
  simp_all

theorem fixup_RLnil {l rr : PNode} {k d w rk rd rw : Nat}
    (hout : WEIGHT (.node .nil rk rd rw rr) > WEIGHT l)
    (hnrr : ¬ WEIGHT rr > WEIGHT l)
    (hrl : WEIGHT (.nil : PNode) > WEIGHT l) :
    fixup (.node l k d w (.node .nil rk rd rw rr)) =
      .node l k d w (.node .nil rk rd rw rr) := by
  rw [fixup.eq_def]
  dsimp only
  rw [if_pos hout, if_neg hnrr, if_pos hrl]

theorem fixup_LRnil {ll r : PNode} {k d w lk ld lw : Nat}
    (hnr : ¬ WEIGHT r > WEIGHT (.node ll lk ld lw .nil))
    (hout : WEIGHT (.node ll lk ld lw .nil) > WEIGHT r)
    (hnll : ¬ WEIGHT ll > WEIGHT r)
    (hlr : WEIGHT (.nil : PNode) > WEIGHT r) :
    fixup (.node (.node ll lk ld lw .nil) k d w r) =
      .node (.node ll lk ld lw .nil) k d w r := by
  rw [fixup.eq_def]
  dsimp only
  rw [if_neg hnr, if_pos hout, if_neg hnll, if_pos hlr]

theorem fixup_rbal {l rl rr : PNode} {k d w rk rd rw : Nat}
    (hout : WEIGHT (.node rl rk rd rw rr) > WEIGHT l)
    (hnrr : ¬ WEIGHT rr > WEIGHT l) (hnrl : ¬ WEIGHT rl > WEIGHT l) :
    fixup (.node l k d w (.node rl rk rd rw rr)) =
      .node l k d w (.node rl rk rd rw rr) := by
  rw [fixup.eq_def]
  dsimp only
  rw [if_pos hout, if_neg hnrr, if_neg hnrl]

theorem fixup_lnil {r : PNode} {k d w : Nat}
    (hnr : ¬ WEIGHT r > WEIGHT (.nil : PNode)) (hg : WEIGHT (.nil : PNode) > WEIGHT r) :
    fixup (.node .nil k d w r) = .node .nil k d w r := by
  rw [fixup.eq_def]
  simp_all

theorem fixup_RR {ll lr r : PNode} {k d w lk ld lw : Nat}
    (hnr : ¬ WEIGHT r > WEIGHT (.node ll lk ld lw lr))
    (hout : WEIGHT (.node ll lk ld lw lr) > WEIGHT r)
    (hll : WEIGHT ll > WEIGHT r) :
    fixup (.node (.node ll lk ld lw lr) k d w r) =
      .node ll lk ld (WEIGHT ll + (WEIGHT lr + WEIGHT r))
        (fixup (.node lr k d (WEIGHT lr + WEIGHT r) r)) := by
  rw [fixup.eq_def]
  simp_all

theorem fixup_LR {ll lrl lrr r : PNode} {k d w lk ld lw lrk lrd lrw : Nat}
    (hnr : ¬ WEIGHT r > WEIGHT (.node ll lk ld lw (.node lrl lrk lrd lrw lrr)))
    (hout : WEIGHT (.node ll lk ld lw (.node lrl lrk lrd lrw lrr)) > WEIGHT r)
    (hnll : ¬ WEIGHT ll > WEIGHT r)
    (hlr : WEIGHT (.node lrl lrk lrd lrw lrr) > WEIGHT r) :
    fixup (.node (.node ll lk ld lw (.node lrl lrk lrd lrw lrr)) k d w r) =
      .node (.node (fixup ll) lk ld (WEIGHT ll + WEIGHT lrl) lrl) lrk lrd
        (WEIGHT ll + WEIGHT lrl + (WEIGHT lrr + WEIGHT r))
        (fixup (.node lrr k d (WEIGHT lrr + WEIGHT r) r)) := by
  rw [fixup.eq_def]
  dsimp only
  rw [if_neg hnr, if_pos hout, if_neg hnll, if_pos hlr]

theorem fixup_lbal {ll lr r : PNode} {k d w lk ld lw : Nat}
    (hnr : ¬ WEIGHT r > WEIGHT (.node ll lk ld lw lr))
    (hout : WEIGHT (.node ll lk ld lw lr) > WEIGHT r)
    (hnll : ¬ WEIGHT ll > WEIGHT r) (hnlr : ¬ WEIGHT lr > WEIGHT r) :
    fixup (.node (.node ll lk ld lw lr) k d w r) =
      .node (.node ll lk ld lw lr) k d w r := by
  rw [fixup.eq_def]
  dsimp only
  rw [if_neg hnr, if_pos hout, if_neg hnll, if_neg hnlr]

theorem fixup_bal {l r : PNode} {k d w : Nat}
    (hnr : ¬ WEIGHT r > WEIGHT l) (hnl : ¬ WEIGHT l > WEIGHT r) :
    fixup (.node l k d w r) = .node l k d w r := by
  rw [fixup.eq_def]
  dsimp only
  rw [if_neg hnr, if_neg hnl]

/-! ### fixup preservation lemmas -/

theorem inorder_fixup (n : PNode) : inorder (fixup n) = inorder n := by
  induction n using fixup.induct
  case case1 => rw [fixup_nil]
  case case2 l k d w hg => rw [fixup_rnil hg]
  case case3 l k d w rl rk rd rw rr hrr hout ih =>
    rw [fixup_LL hout hrr]
    simp [ih]
  case case4 l k d w rk rd rw rr hnrr hnil hout =>
    rw [fixup_RLnil hout hnrr hnil]
  case case5 l k d w rk rd rw rr hnrr rll rlk rld rlw rlr hrl hout ih1 ih2 =>
    rw [fixup_RL hout hnrr hrl]
    simp [ih1, ih2]
  case case6 l k d w rl rk rd rw rr hnrr hnrl hout =>
    rw [fixup_rbal hout hnrr hnrl]
  case case7 k d w r hnot hg =>
    rw [fixup_lnil hnot hg]
  case case8 k d w r ll lk ld lw lr hll hnot hout ih =>
    rw [fixup_RR hnot hout hll]
    simp [ih]
  case case9 k d w r ll lk ld lw hnll hnil hnot hout =>
    rw [fixup_LRnil hnot hout hnll hnil]
  case case10 k d w r ll lk ld lw hnll lrl lrk lrd lrw lrr hlr hnot hout ih1 ih2 =>
    rw [fixup_LR hnot hout hnll hlr]
    simp [ih1, ih2]
  case case11 k d w r ll lk ld lw lr hnll hnlr hnot hout =>
    rw [fixup_lbal hnot hout hnll hnlr]
  case case12 l k d w r hnr hnl =>
    rw [fixup_bal hnr hnl]

theorem size_eq_length (t : PNode) : size t = (inorder t).length := by
  induction t <;> simp_all
  omega

theorem size_fixup (n : PNode) : size (fixup n) = size n := by
  rw [size_eq_length, size_eq_length, inorder_fixup]

/-- Total weight across fixup, given the weight invariant on both sides. -/
theorem WEIGHT_fixup_of_weightOk {n : PNode} (h1 : weightOk n = true)
    (h2 : weightOk (fixup n) = true) : WEIGHT (fixup n) = WEIGHT n := by
  rw [weight_eq_size h1, weight_eq_size h2, size_fixup]

/-- fixup keeps every stored weight consistent. -/
theorem weightOk_fixup {n : PNode} (h : weightOk n = true) :
    weightOk (fixup n) = true := by
  induction n using fixup.induct
  case case1 => simpa [fixup_nil] using h
  case case2 l k d w hg =>
    rw [fixup_rnil hg]
    exact h
  case case3 l k d w rl rk rd rw rr hrr hout ih =>
    rw [weightOk_node] at h
    obtain ⟨hw, hl, hr⟩ := h
    rw [weightOk_node] at hr
    obtain ⟨hrw, hrl, hrr2⟩ := hr
    have hB : weightOk (.node l k d (WEIGHT l + WEIGHT rl) rl) = true := by
      rw [weightOk_node]
      exact ⟨rfl, hl, hrl⟩
    have ih1 := ih hB
    have ih2 := WEIGHT_fixup_of_weightOk hB ih1
    rw [fixup_LL hout hrr, weightOk_node]
    refine ⟨?_, ih1, hrr2⟩
    rw [ih2]
    simp
  case case4 l k d w rk rd rw rr hnrr hnil hout =>
    rw [fixup_RLnil hout hnrr hnil]
    exact h
  case case5 l k d w rk rd rw rr hnrr rll rlk rld rlw rlr hrl hout ih1 ih2 =>
    rw [weightOk_node] at h
    obtain ⟨hw, hl, hr⟩ := h
    rw [weightOk_node] at hr
    obtain ⟨hrw, hrlOk, hrrOk⟩ := hr
    rw [weightOk_node] at hrlOk
    obtain ⟨hrlw, hrllOk, hrlrOk⟩ := hrlOk
    have hB : weightOk (.node l k d (WEIGHT l + WEIGHT rll) rll) = true := by
      rw [weightOk_node]
      exact ⟨rfl, hl, hrllOk⟩
    have i1 := ih1 hB
    have i1w := WEIGHT_fixup_of_weightOk hB i1
    have i2 := ih2 hrrOk
    have i2w := WEIGHT_fixup_of_weightOk hrrOk i2
    rw [fixup_RL hout hnrr hrl, weightOk_node]
    refine ⟨?_, i1, ?_⟩
    · rw [i1w]
      simp
    · rw [weightOk_node]
      refine ⟨?_, hrlrOk, i2⟩
      rw [i2w]
  case case6 l k d w rl rk rd rw rr hnrr hnrl hout =>
    rw [fixup_rbal hout hnrr hnrl]
    exact h
  case case7 k d w r hnot hg =>
    rw [fixup_lnil hnot hg]
    exact h
  case case8 k d w r ll lk ld lw lr hll hnot hout ih =>
    rw [weightOk_node] at h
    obtain ⟨hw, hl, hr⟩ := h
    rw [weightOk_node] at hl
    obtain ⟨hlw, hllOk, hlrOk⟩ := hl
    have hB : weightOk (.node lr k d (WEIGHT lr + WEIGHT r) r) = true := by
      rw [weightOk_node]
      exact ⟨rfl, hlrOk, hr⟩
    have i1 := ih hB
    have i1w := WEIGHT_fixup_of_weightOk hB i1
    rw [fixup_RR hnot hout hll, weightOk_node]
    refine ⟨?_, hllOk, i1⟩
    rw [i1w]
    simp
  case case9 k d w r ll lk ld lw hnll hnil hnot hout =>
    rw [fixup_LRnil hnot hout hnll hnil]
    exact h
  case case10 k d w r ll lk ld lw hnll lrl lrk lrd lrw lrr hlr hnot hout ih1 ih2 =>
    rw [weightOk_node] at h
    obtain ⟨hw, hl, hr⟩ := h
    rw [weightOk_node] at hl
    obtain ⟨hlw, hllOk, hlrOk⟩ := hl
    rw [weightOk_node] at hlrOk
    obtain ⟨hlrw, hlrlOk, hlrrOk⟩ := hlrOk
    have i1 := ih1 hllOk
    have i1w := WEIGHT_fixup_of_weightOk hllOk i1
    have hB : weightOk (.node lrr k d (WEIGHT lrr + WEIGHT r) r) = true := by
      rw [weightOk_node]
      exact ⟨rfl, hlrrOk, hr⟩
    have i2 := ih2 hB
    have i2w := WEIGHT_fixup_of_weightOk hB i2
    rw [fixup_LR hnot hout hnll hlr, weightOk_node]
    refine ⟨?_, ?_, i2⟩
    · rw [i2w]
      simp
    · rw [weightOk_node]
      refine ⟨?_, i1, hlrlOk⟩
      rw [i1w]
  case case11 k d w r ll lk ld lw lr hnll hnlr hnot hout =>
    rw [fixup_lbal hnot hout hnll hnlr]
    exact h
  case case12 l k d w r hnr hnl =>
    rw [fixup_bal hnr hnl]
    exact h

/-! ### Keys and the search tree invariant -/

@[simp] theorem keys_nil : keys .nil = [] := rfl

@[simp] theorem keys_node {l r : PNode} {k d w : Nat} :
    keys (.node l k d w r) = keys l ++ k :: keys r := by
  simp [keys]

@[simp] theorem bst_nil : bst .nil = true := rfl

@[simp] theorem bst_node {l r : PNode} {k d w : Nat} :
    bst (.node l k d w r) = true ↔
      (∀ x ∈ keys l, x < k) ∧ (∀ x ∈ keys r, k < x) ∧ bst l = true ∧ bst r = true := by
  simp [bst, Bool.and_eq_true, List.all_eq_true, and_assoc]

theorem bst_iff_pairwise {t : PNode} :
    bst t = true ↔ (keys t).Pairwise (· < ·) := by
  induction t with
  | nil => simp
  | node l k d w r ihl ihr =>
    rw [bst_node, keys_node, List.pairwise_append]
    constructor
    · rintro ⟨hlk, hrk, hl, hr⟩
      refine ⟨ihl.mp hl, ?_, ?_⟩
      · rw [List.pairwise_cons]
        exact ⟨hrk, ihr.mp hr⟩
      · intro x hx y hy
        rcases List.mem_cons.mp hy with hy | hy
        · exact hy ▸ hlk x hx
        · exact lt_trans (hlk x hx) (hrk y hy)
    · rintro ⟨hpl, hpr, hcross⟩
      rw [List.pairwise_cons] at hpr
      refine ⟨?_, hpr.1, ihl.mpr hpl, ihr.mpr hpr.2⟩
      intro x hx
      exact hcross x hx k (List.mem_cons_self _ _)

theorem keys_fixup (n : PNode) : keys (fixup n) = keys n := by
  simp [keys, inorder_fixup]

theorem bst_fixup {n : PNode} : bst (fixup n) = true ↔ bst n = true := by
  rw [bst_iff_pairwise, bst_iff_pairwise, keys_fixup]

/-! ### The list-level specification of insertion -/

/-- What insert and probe do to the in-order association list: walk to the
first key not below `key` and either splice a new pair, replace, or leave the
list alone, depending on what is found and on the overwrite and allocation
flags. -/
def insPairs (key v : Nat) (ow ok : Bool) : List (Nat × Nat) → List (Nat × Nat)
  | [] => if ok then [(key, v)] else []
  | (a, b) :: rest =>
    if key < a then (if ok then (key, v) :: (a, b) :: rest else (a, b) :: rest)
    else if a < key then (a, b) :: insPairs key v ow ok rest
    else (if ow then (key, v) :: rest else (a, b) :: rest)

theorem insPairs_append_mid {key v : Nat} {ow ok : Bool} {k d : Nat}
    (A : List (Nat × Nat)) (B : List (Nat × Nat))
    (hA : ∀ p ∈ A, p.1 < k) (hkey : key < k) :
    insPairs key v ow ok (A ++ (k, d) :: B) = insPairs key v ow ok A ++ (k, d) :: B := by
  induction A with
  | nil =>
    simp [insPairs, hkey]
    split <;> simp
  | cons p A ih =>
    obtain ⟨a, b⟩ := p
    have hrest : ∀ q ∈ A, q.1 < k := fun q hq => hA q (List.mem_cons_of_mem _ hq)
    simp only [List.cons_append, insPairs, List.append_eq]
    split
    · split <;> simp
    · split
      · rw [ih hrest]
        simp
      · split <;> simp

theorem insPairs_append_skip {key v : Nat} {ow ok : Bool}
    (A C : List (Nat × Nat)) (hA : ∀ p ∈ A, p.1 < key) :
    insPairs key v ow ok (A ++ C) = A ++ insPairs key v ow ok C := by
  induction A with
  | nil => simp
  | cons p A ih =>
    obtain ⟨a, b⟩ := p
    have ha : a < key := hA (a, b) (List.mem_cons_self _ _)
    have hrest : ∀ q ∈ A, q.1 < key := fun q hq => hA q (List.mem_cons_of_mem _ hq)
    simp only [List.cons_append, insPairs, List.append_eq]
    rw [if_neg (by omega), if_pos ha, ih hrest]

/-- The list-level lookup performed by `pr_tree_search`: first pair with the
key wins, absent keys give the null pointer 0. -/
def assocD (key : Nat) : List (Nat × Nat) → Nat
  | [] => 0
  | (a, b) :: rest => if key = a then b else assocD key rest

theorem assocD_append_notin_left {key : Nat} {A C : List (Nat × Nat)}
    (hA : ∀ p ∈ A, p.1 ≠ key) :
    assocD key (A ++ C) = assocD key C := by
  induction A with
  | nil => simp
  | cons p A ih =>
    obtain ⟨a, b⟩ := p
    have ha : a ≠ key := hA (a, b) (List.mem_cons_self _ _)
    simp only [List.cons_append, assocD]
    rw [if_neg (by omega)]
    exact ih (fun q hq => hA q (List.mem_cons_of_mem _ hq))

theorem assocD_append_notin_right {key : Nat} {A C : List (Nat × Nat)}
    (hC : ∀ p ∈ C, p.1 ≠ key) :
    assocD key (A ++ C) = assocD key A := by
  induction A with
  | nil =>
    simp only [List.nil_append, assocD]
    induction C with
    | nil => rfl
    | cons p C ihC =>
      obtain ⟨a, b⟩ := p
      have ha : a ≠ key := hC (a, b) (List.mem_cons_self _ _)
      simp only [assocD]
      rw [if_neg (by omega)]
      exact ihC (fun q hq => hC q (List.mem_cons_of_mem _ hq))
  | cons p A ih =>
    obtain ⟨a, b⟩ := p
    simp only [List.cons_append, assocD]
    split
    · rfl
    · exact ih

theorem assocD_notin {key : Nat} {A : List (Nat × Nat)}
    (hA : ∀ p ∈ A, p.1 ≠ key) : assocD key A = 0 := by
  have := assocD_append_notin_left (C := ([] : List (Nat × Nat))) hA
  simpa using this

/-! ### insert_go branch unfolding -/

theorem insert_go_nil_ok {key v : Nat} {ow : Bool} :
    insert_go key v ow true .nil = (node_new key v, 0, true) := by
  simp [insert_go]

theorem insert_go_nil_fail {key v : Nat} {ow : Bool} :
    insert_go key v ow false .nil = (.nil, -1, false) := by
  simp [insert_go]

theorem insert_go_lt {key v k d w : Nat} {ow ok : Bool} {l r : PNode} (h : key < k) :
    insert_go key v ow ok (.node l k d w r) =
      (if (insert_go key v ow ok l).2.2
        then fixup (.node (insert_go key v ow ok l).1 k d (w + 1) r)
        else .node (insert_go key v ow ok l).1 k d w r,
       (insert_go key v ow ok l).2) := by
  simp only [insert_go]
  rw [if_pos (dcmp_lt.mpr h)]

theorem insert_go_gt {key v k d w : Nat} {ow ok : Bool} {l r : PNode} (h : k < key) :
    insert_go key v ow ok (.node l k d w r) =
      (if (insert_go key v ow ok r).2.2
        then fixup (.node l k d (w + 1) (insert_go key v ow ok r).1)
        else .node l k d w (insert_go key v ow ok r).1,
       (insert_go key v ow ok r).2) := by
  simp only [insert_go]
  rw [if_neg (by rw [dcmp_lt]; omega), if_pos (dcmp_gt.mpr h)]

theorem insert_go_eq_ow {key v k d w : Nat} {ok : Bool} {l r : PNode} (h : key = k) :
    insert_go key v true ok (.node l k d w r) = (.node l key v w r, 0, false) := by
  subst h
  simp only [insert_go]
  rw [if_neg (by rw [dcmp_lt]; omega), if_neg (by rw [dcmp_gt]; omega)]
  simp

theorem insert_go_eq_noow {key v k d w : Nat} {ok : Bool} {l r : PNode} (h : key = k) :
    insert_go key v false ok (.node l k d w r) = (.node l k d w r, 1, false) := by
  subst h
  simp only [insert_go]
  rw [if_neg (by rw [dcmp_lt]; omega), if_neg (by rw [dcmp_gt]; omega)]
  simp

/-! ### insert_go semantic lemmas -/

/-- In-order effect of the insert descent on a search tree. -/
theorem inorder_insert {t : PNode} {key v : Nat} {ow ok : Bool} (hb : bst t = true) :
    inorder (insert_go key v ow ok t).1 = insPairs key v ow ok (inorder t) := by
  induction t with
  | nil =>
    cases ok <;> simp [insert_go, insPairs, node_new]
  | node l k d w r ihl ihr =>
    rw [bst_node] at hb
    obtain ⟨hlk, hrk, hbl, hbr⟩ := hb
    have hlp : ∀ p ∈ inorder l, p.1 < k := by
      intro p hp
      exact hlk p.1 (List.mem_map_of_mem Prod.fst hp)
    rcases Nat.lt_trichotomy key k with h | h | h
    · rw [insert_go_lt h]
      simp only [inorder_node]
      rw [insPairs_append_mid (inorder l) (inorder r) hlp h]
      split <;> simp [inorder_fixup, ihl hbl]
    · subst h
      cases ow
      · rw [insert_go_eq_noow rfl]
        simp only [inorder_node]
        rw [insPairs_append_skip (inorder l) _ (fun p hp => hlp p hp)]
        simp [insPairs]
      · rw [insert_go_eq_ow rfl]
        simp only [inorder_node]
        rw [insPairs_append_skip (inorder l) _ (fun p hp => hlp p hp)]
        simp [insPairs]
    · rw [insert_go_gt h]
      simp only [inorder_node]
      have hlp2 : ∀ p ∈ inorder l, p.1 < key := fun p hp => lt_trans (hlp p hp) h
      rw [insPairs_append_skip (inorder l) _ hlp2]
      have : insPairs key v ow ok ((k, d) :: inorder r) =
          (k, d) :: insPairs key v ow ok (inorder r) := by
        simp only [insPairs]
        rw [if_neg (by omega), if_pos h]
      rw [this]
      split <;> simp [inorder_fixup, ihr hbr]

/-- A duplicate insert with overwrite off returns 1 and hands back the
identical tree. -/
theorem insert_present_noow {t : PNode} {key v : Nat} {ok : Bool}
    (hb : bst t = true) (hk : key ∈ keys t) :
    insert_go key v false ok t = (t, 1, false) := by
  induction t with
  | nil => simp at hk
  | node l k d w r ihl ihr =>
    rw [bst_node] at hb
    obtain ⟨hlk, hrk, hbl, hbr⟩ := hb
    rw [keys_node] at hk
    rcases Nat.lt_trichotomy key k with h | h | h
    · have hkl : key ∈ keys l := by
        rcases List.mem_append.mp hk with hx | hx
        · exact hx
        · rcases List.mem_cons.mp hx with hx | hx
          · omega
          · have := hrk key hx
            omega
      rw [insert_go_lt h, ihl hbl hkl]
      simp
    · exact insert_go_eq_noow h
    · have hkr : key ∈ keys r := by
        rcases List.mem_append.mp hk with hx | hx
        · have := hlk key hx
          omega
        · rcases List.mem_cons.mp hx with hx | hx
          · omega
          · exact hx
      rw [insert_go_gt h, ihr hbr hkr]
      simp

/-- With a failing allocation and an absent key the insert descends to a
missing leaf, allocation fails, and the tree is handed back unchanged with
return value -1. -/
theorem insert_absent_fail {t : PNode} {key v : Nat} {ow : Bool}
    (hk : key ∉ keys t) :
    insert_go key v ow false t = (t, -1, false) := by
  induction t with
  | nil => simp [insert_go]
  | node l k d w r ihl ihr =>
    rw [keys_node] at hk
    have hne : key ≠ k := by
      intro h
      exact hk (by simp [h])
    rcases Nat.lt_trichotomy key k with h | h | h
    · have : key ∉ keys l := fun hx => hk (List.mem_append.mpr (Or.inl hx))
      rw [insert_go_lt h, ihl this]
      simp
    · exact absurd h hne
    · have : key ∉ keys r := fun hx => hk (by simp [hx])
      rw [insert_go_gt h, ihr this]
      simp

/-- On an absent key with allocation succeeding, insert reports 0 and grows. -/
theorem insert_absent_ok {t : PNode} {key v : Nat} {ow : Bool}
    (hk : key ∉ keys t) :
    (insert_go key v ow true t).2 = (0, true) := by
  induction t with
  | nil => simp [insert_go]
  | node l k d w r ihl ihr =>
    rw [keys_node] at hk
    have hne : key ≠ k := by
      intro h
      exact hk (by simp [h])
    rcases Nat.lt_trichotomy key k with h | h | h
    · have : key ∉ keys l := fun hx => hk (List.mem_append.mpr (Or.inl hx))
      rw [insert_go_lt h]
      exact ihl this
    · exact absurd h hne
    · have : key ∉ keys r := fun hx => hk (by simp [hx])
      rw [insert_go_gt h]
      exact ihr this

/-- With allocation succeeding the insert never reports -1. -/
theorem insert_no_fail {t : PNode} {key v : Nat} {ow : Bool} :
    (insert_go key v ow true t).2.1 ≠ -1 := by
  induction t with
  | nil => simp [insert_go]
  | node l k d w r ihl ihr =>
    rcases Nat.lt_trichotomy key k with h | h | h
    · rw [insert_go_lt h]
      exact ihl
    · subst h
      cases ow
      · rw [insert_go_eq_noow rfl]
        simp
      · rw [insert_go_eq_ow rfl]
        simp
    · rw [insert_go_gt h]
      exact ihr

/-- Weight bookkeeping of the insert walk: stored weights stay consistent
and the total weight grows by one exactly when a node was created. -/
theorem insert_weightOk {t : PNode} {key v : Nat} {ow ok : Bool}
    (h : weightOk t = true) :
    weightOk (insert_go key v ow ok t).1 = true ∧
      WEIGHT (insert_go key v ow ok t).1 =
        WEIGHT t + (if (insert_go key v ow ok t).2.2 then 1 else 0) := by
  induction t with
  | nil =>
    cases ok <;> simp [insert_go, node_new]
  | node l k d w r ihl ihr =>
    rw [weightOk_node] at h
    obtain ⟨hw, hl, hr⟩ := h
    rcases Nat.lt_trichotomy key k with hc | hc | hc
    · obtain ⟨ih1, ih2⟩ := ihl hl
      rw [insert_go_lt hc]
      by_cases hg : (insert_go key v ow ok l).2.2 = true
      · have hok : weightOk (.node (insert_go key v ow ok l).1 k d (w + 1) r) = true := by
          rw [weightOk_node]
          refine ⟨?_, ih1, hr⟩
          rw [ih2, if_pos hg]
          omega
        simp only [hg, if_pos, if_true]
        refine ⟨weightOk_fixup hok, ?_⟩
        rw [WEIGHT_fixup_of_weightOk hok (weightOk_fixup hok)]
        simp
      · rw [Bool.not_eq_true] at hg
        simp only [hg, Bool.false_eq_true, if_false]
        refine ⟨?_, by simp⟩
        rw [weightOk_node]
        refine ⟨?_, ih1, hr⟩
        rw [ih2, hg]
        simp [hw]
    · subst hc
      cases ow
      · rw [insert_go_eq_noow rfl]
        simp only [if_false, Bool.false_eq_true]
        refine ⟨?_, by simp⟩
        rw [weightOk_node]
        exact ⟨hw, hl, hr⟩
      · rw [insert_go_eq_ow rfl]
        simp only [if_false, Bool.false_eq_true]
        refine ⟨?_, by simp⟩
        rw [weightOk_node]
        exact ⟨hw, hl, hr⟩
    · obtain ⟨ih1, ih2⟩ := ihr hr
      rw [insert_go_gt hc]
      by_cases hg : (insert_go key v ow ok r).2.2 = true
      · have hok : weightOk (.node l k d (w + 1) (insert_go key v ow ok r).1) = true := by
          rw [weightOk_node]
          refine ⟨?_, hl, ih1⟩
          rw [ih2, if_pos hg]
          omega
        simp only [hg, if_pos, if_true]
        refine ⟨weightOk_fixup hok, ?_⟩
        rw [WEIGHT_fixup_of_weightOk hok (weightOk_fixup hok)]
        simp
      · rw [Bool.not_eq_true] at hg
        simp only [hg, Bool.false_eq_true, if_false]
        refine ⟨?_, by simp⟩
        rw [weightOk_node]
        refine ⟨?_, hl, ih1⟩
        rw [ih2, hg]
        simp [hw]

/-! ### Ordering is preserved by insertion -/

theorem mem_insPairs_fst {key v : Nat} {ow ok : Bool} {A : List (Nat × Nat)} {x : Nat}
    (hx : x ∈ (insPairs key v ow ok A).map Prod.fst) :
    x = key ∨ x ∈ A.map Prod.fst := by
  induction A with
  | nil =>
    simp only [insPairs] at hx
    split at hx <;> simp_all
  | cons p A ih =>
    obtain ⟨a, b⟩ := p
    simp only [insPairs] at hx
    split at hx
    · split at hx <;> simp_all
    · split at hx
      · simp only [List.map_cons, List.mem_cons] at hx
        rcases hx with hx | hx
        · simp [hx]
        · rcases ih hx with hx | hx
          · exact Or.inl hx
          · simp [hx]
      · split at hx <;> simp_all <;> tauto

theorem pairwise_insPairs {key v : Nat} {ow ok : Bool} {A : List (Nat × Nat)}
    (hA : A.Pairwise (fun p q => p.1 < q.1)) :
    (insPairs key v ow ok A).Pairwise (fun p q => p.1 < q.1) := by
  induction A with
  | nil =>
    simp only [insPairs]
    split <;> simp
  | cons p A ih =>
    obtain ⟨a, b⟩ := p
    rw [List.pairwise_cons] at hA
    obtain ⟨ha, hA2⟩ := hA
    simp only [insPairs]
    split
    · split
      · rw [List.pairwise_cons]
        refine ⟨?_, List.pairwise_cons.mpr ⟨ha, hA2⟩⟩
        intro q hq
        rcases List.mem_cons.mp hq with hq | hq
        · simp [hq]
          omega
        · have := ha q hq
          simp
          omega
      · exact List.pairwise_cons.mpr ⟨ha, hA2⟩
    · split
      · rw [List.pairwise_cons]
        refine ⟨?_, ih hA2⟩
        intro q hq
        have := mem_insPairs_fst (List.mem_map_of_mem Prod.fst hq)
        rcases this with hq2 | hq2
        · omega
        · rcases List.mem_map.mp hq2 with ⟨q', hq', hq'2⟩
          have : ∃ z ∈ A, z.1 = q.1 := ⟨q', hq', hq'2⟩
          rcases this with ⟨z, hz, hz2⟩
          have := ha z hz
          omega
      · split
        · rw [List.pairwise_cons]
          refine ⟨?_, hA2⟩
          intro q hq
          have hcmp : ¬ key < a ∧ ¬ a < key := by
            constructor <;> omega
          have : a = key := by omega
          subst this
          exact ha q hq
        · exact List.pairwise_cons.mpr ⟨ha, hA2⟩

theorem pairwise_keys_iff {t : PNode} :
    (keys t).Pairwise (· < ·) ↔ (inorder t).Pairwise (fun p q => p.1 < q.1) := by
  rw [keys, List.pairwise_map]

/-- Insertion preserves the search tree ordering. -/
theorem bst_insert {t : PNode} {key v : Nat} {ow ok : Bool} (hb : bst t = true) :
    bst (insert_go key v ow ok t).1 = true := by
  rw [bst_iff_pairwise, pairwise_keys_iff, inorder_insert hb]
  exact pairwise_insPairs (pairwise_keys_iff.mp (bst_iff_pairwise.mp hb))

/-! ### search_node lemmas -/

theorem search_lt {key k d w : Nat} {l r : PNode} (h : key < k) :
    search_node key (.node l k d w r) = search_node key l := by
  simp only [search_node]
  rw [if_pos (dcmp_lt.mpr h)]

theorem search_gt {key k d w : Nat} {l r : PNode} (h : k < key) :
    search_node key (.node l k d w r) = search_node key r := by
  simp only [search_node]
  rw [if_neg (by rw [dcmp_lt]; omega), if_pos (dcmp_gt.mpr h)]

theorem search_eq {key k d w : Nat} {l r : PNode} (h : key = k) :
    search_node key (.node l k d w r) = d := by
  subst h
  simp only [search_node]
  rw [if_neg (by rw [dcmp_lt]; omega), if_neg (by rw [dcmp_gt]; omega)]

/-- On a search tree the descent computes the first-match association
lookup of the in-order list. -/
theorem search_eq_assocD {t : PNode} {key : Nat} (hb : bst t = true) :
    search_node key t = assocD key (inorder t) := by
  induction t with
  | nil => rfl
  | node l k d w r ihl ihr =>
    rw [bst_node] at hb
    obtain ⟨hlk, hrk, hbl, hbr⟩ := hb
    have hlp : ∀ p ∈ inorder l, p.1 < k := fun p hp =>
      hlk p.1 (List.mem_map_of_mem Prod.fst hp)
    have hrp : ∀ p ∈ inorder r, k < p.1 := fun p hp =>
      hrk p.1 (List.mem_map_of_mem Prod.fst hp)
    rcases Nat.lt_trichotomy key k with h | h | h
    · rw [search_lt h, inorder_node]
      rw [assocD_append_notin_right]
      · exact ihl hbl
      · intro p hp
        rcases List.mem_cons.mp hp with hp | hp
        · simp [hp]
          omega
        · have := hrp p hp
          omega
    · subst h
      rw [search_eq rfl, inorder_node]
      rw [assocD_append_notin_left (fun p hp => by have := hlp p hp; omega)]
      simp [assocD]
    · rw [search_gt h, inorder_node]
      rw [assocD_append_notin_left (fun p hp => by have := hlp p hp; omega)]
      simp only [assocD]
      rw [if_neg (by omega)]
      exact ihr hbr

/-- A key that is nowhere in the tree is reported as the null pointer; no
ordering assumption is needed. -/
theorem search_absent {t : PNode} {key : Nat} (hk : key ∉ keys t) :
    search_node key t = 0 := by
  induction t with
  | nil => rfl
  | node l k d w r ihl ihr =>
    rw [keys_node] at hk
    have hne : key ≠ k := fun h => hk (by simp [h])
    rcases Nat.lt_trichotomy key k with h | h | h
    · rw [search_lt h]
      exact ihl (fun hx => hk (List.mem_append.mpr (Or.inl hx)))
    · exact absurd h hne
    · rw [search_gt h]
      exact ihr (fun hx => hk (by simp [hx]))

theorem assocD_insPairs_absent {key v : Nat} {ow : Bool} {A : List (Nat × Nat)}
    (hk : key ∉ A.map Prod.fst) :
    assocD key (insPairs key v ow true A) = v := by
  induction A with
  | nil => simp [insPairs, assocD]
  | cons p A ih =>
    obtain ⟨a, b⟩ := p
    have hne : key ≠ a := by
      intro h
      exact hk (by simp [h])
    simp only [insPairs]
    rcases Nat.lt_trichotomy key a with h | h | h
    · rw [if_pos h]
      simp [assocD]
    · exact absurd h hne
    · rw [if_neg (by omega), if_pos h]
      simp only [assocD]
      rw [if_neg hne]
      exact ih (fun hx => hk (by simp [hx]))

/-- insert then search round trip for a key not previously present. -/
theorem search_insert_absent {t : PNode} {key v : Nat} {ow : Bool}
    (hb : bst t = true) (hk : key ∉ keys t) :
    search_node key (insert_go key v ow true t).1 = v := by
  rw [search_eq_assocD (bst_insert hb), inorder_insert hb]
  exact assocD_insPairs_absent hk

/-! ### probe_go lemmas -/

theorem probe_go_lt {key v k d w : Nat} {ok : Bool} {l r : PNode} (h : key < k) :
    probe_go key v ok (.node l k d w r) =
      (if (probe_go key v ok l).2.2.2
        then fixup (.node (probe_go key v ok l).1 k d (w + 1) r)
        else .node (probe_go key v ok l).1 k d w r,
       (probe_go key v ok l).2) := by
  simp only [probe_go]
  rw [if_pos (dcmp_lt.mpr h)]

theorem probe_go_gt {key v k d w : Nat} {ok : Bool} {l r : PNode} (h : k < key) :
    probe_go key v ok (.node l k d w r) =
      (if (probe_go key v ok r).2.2.2
        then fixup (.node l k d (w + 1) (probe_go key v ok r).1)
        else .node l k d w (probe_go key v ok r).1,
       (probe_go key v ok r).2) := by
  simp only [probe_go]
  rw [if_neg (by rw [dcmp_lt]; omega), if_pos (dcmp_gt.mpr h)]

theorem probe_go_eq {key v k d w : Nat} {ok : Bool} {l r : PNode} (h : key = k) :
    probe_go key v ok (.node l k d w r) = (.node l k d w r, 0, d, false) := by
  subst h
  simp only [probe_go]
  rw [if_neg (by rw [dcmp_lt]; omega), if_neg (by rw [dcmp_gt]; omega)]

/-- On a hit, probe fills the slot with the stored datum, returns 0 and
leaves the tree untouched. -/
theorem probe_present {t : PNode} {key v d : Nat} {ok : Bool}
    (hb : bst t = true) (hd : (key, d) ∈ inorder t) :
    probe_go key v ok t = (t, 0, d, false) := by
  induction t with
  | nil => simp at hd
  | node l k dd w r ihl ihr =>
    rw [bst_node] at hb
    obtain ⟨hlk, hrk, hbl, hbr⟩ := hb
    rw [inorder_node] at hd
    rcases Nat.lt_trichotomy key k with h | h | h
    · have hdl : (key, d) ∈ inorder l := by
        rcases List.mem_append.mp hd with hx | hx
        · exact hx
        · rcases List.mem_cons.mp hx with hx | hx
          · rw [Prod.ext_iff] at hx
            omega
          · have := hrk key (List.mem_map_of_mem Prod.fst hx)
            omega
      rw [probe_go_lt h, ihl hbl hdl]
      simp
    · subst h
      have hdd : d = dd := by
        rcases List.mem_append.mp hd with hx | hx
        · have := hlk key (List.mem_map_of_mem Prod.fst hx)
          omega
        · rcases List.mem_cons.mp hx with hx | hx
          · exact (Prod.ext_iff.mp hx).2
          · have := hrk key (List.mem_map_of_mem Prod.fst hx)
            omega
      rw [probe_go_eq rfl, hdd]
    · have hdr : (key, d) ∈ inorder r := by
        rcases List.mem_append.mp hd with hx | hx
        · have := hlk key (List.mem_map_of_mem Prod.fst hx)
          omega
        · rcases List.mem_cons.mp hx with hx | hx
          · rw [Prod.ext_iff] at hx
            omega
          · exact hx
      rw [probe_go_gt h, ihr hbr hdr]
      simp

/-- On a miss probe behaves exactly as an insert of the supplied datum,
reports 1 with the slot unchanged, and grows the tree. -/
theorem probe_absent {t : PNode} {key v : Nat} {ok : Bool}
    (hk : key ∉ keys t) :
    probe_go key v ok t =
      ((insert_go key v false ok t).1, if ok then (1, v, true) else (-1, v, false)) := by
  induction t with
  | nil =>
    cases ok <;> simp [probe_go, insert_go]
  | node l k d w r ihl ihr =>
    rw [keys_node] at hk
    have hne : key ≠ k := fun h => hk (by simp [h])
    rcases Nat.lt_trichotomy key k with h | h | h
    · have hkl : key ∉ keys l := fun hx => hk (List.mem_append.mpr (Or.inl hx))
      rw [probe_go_lt h, insert_go_lt h, ihl hkl]
      cases ok
      · rw [insert_absent_fail hkl]
        simp
      · have := @insert_absent_ok l key v false hkl
        simp only [this]
        simp
    · exact absurd h hne
    · have hkr : key ∉ keys r := fun hx => hk (by simp [hx])
      rw [probe_go_gt h, insert_go_gt h, ihr hkr]
      cases ok
      · rw [insert_absent_fail hkr]
        simp
      · have := @insert_absent_ok r key v false hkr
        simp only [this]
        simp

/-! ### delNode and remove_go lemmas -/

theorem corrective_left_ne_nil {p : Prop} [Decidable p] {ll lr : PNode} {lk ld lw : Nat} :
    (if p then rot_left (.node ll lk ld lw lr) else .node ll lk ld lw lr) ≠ PNode.nil := by
  split
  · unfold rot_left
    split
    · simp
    · simp
  · simp

theorem corrective_right_ne_nil {p : Prop} [Decidable p] {rl rr : PNode} {rk rd rw : Nat} :
    (if p then rot_right (.node rl rk rd rw rr) else .node rl rk rd rw rr) ≠ PNode.nil := by
  split
  · unfold rot_right
    split
    · simp
    · simp
  · simp

theorem inorder_of_corrective_left {p : Prop} [Decidable p]
    {ll lr a b : PNode} {lk ld lw xk xd aw : Nat}
    (h : (if p then rot_left (.node ll lk ld lw lr) else .node ll lk ld lw lr) =
      PNode.node a xk xd aw b) :
    inorder (.node ll lk ld lw lr) = inorder a ++ (xk, xd) :: inorder b := by
  split at h
  · have := inorder_rot_left (.node ll lk ld lw lr)
    rw [h] at this
    simpa using this.symm
  · rw [h]
    simp

theorem inorder_of_corrective_right {p : Prop} [Decidable p]
    {rl rr a b : PNode} {rk rd rw xk xd aw : Nat}
    (h : (if p then rot_right (.node rl rk rd rw rr) else .node rl rk rd rw rr) =
      PNode.node a xk xd aw b) :
    inorder (.node rl rk rd rw rr) = inorder a ++ (xk, xd) :: inorder b := by
  split at h
  · have := inorder_rot_right (.node rl rk rd rw rr)
    rw [h] at this
    simpa using this.symm
  · rw [h]
    simp

theorem weightOk_of_corrective_left {p : Prop} [Decidable p]
    {ll lr a b : PNode} {lk ld lw xk xd aw : Nat}
    (hok : weightOk (.node ll lk ld lw lr) = true)
    (h : (if p then rot_left (.node ll lk ld lw lr) else .node ll lk ld lw lr) =
      PNode.node a xk xd aw b) :
    weightOk (.node a xk xd aw b) = true ∧ aw = WEIGHT (.node ll lk ld lw lr) := by
  split at h
  · obtain ⟨h1, h2⟩ := weightOk_rot_left hok
    rw [h] at h1 h2
    exact ⟨h1, h2⟩
  · rw [h] at hok ⊢
    exact ⟨hok, rfl⟩

theorem weightOk_of_corrective_right {p : Prop} [Decidable p]
    {rl rr a b : PNode} {rk rd rw xk xd aw : Nat}
    (hok : weightOk (.node rl rk rd rw rr) = true)
    (h : (if p then rot_right (.node rl rk rd rw rr) else .node rl rk rd rw rr) =
      PNode.node a xk xd aw b) :
    weightOk (.node a xk xd aw b) = true ∧ aw = WEIGHT (.node rl rk rd rw rr) := by
  split at h
  · obtain ⟨h1, h2⟩ := weightOk_rot_right hok
    rw [h] at h1 h2
    exact ⟨h1, h2⟩
  · rw [h] at hok ⊢
    exact ⟨hok, rfl⟩

/-- The node located by remove vanishes and everything else stays, in order:
the inner rotate-down loop ends in a splice that drops exactly the located
pair. -/
theorem inorder_delNode (n : PNode) {l r : PNode} {k d w : Nat}
    (hn : n = .node l k d w r) :
    inorder (delNode n) = inorder l ++ inorder r := by
  induction n using delNode.induct generalizing l k d w r
  case case1 => simp at hn
  case case2 k2 d2 w2 r2 =>
    rw [delNode]
    injection hn with h1 h2 h3 h4 h5
    subst h1; subst h5
    simp
  case case3 k2 d2 w2 ll lk ld lw lr =>
    rw [delNode]
    injection hn with h1 h2 h3 h4 h5
    subst h1; subst h5
    simp
  case case4 k2 d2 w2 ll lk ld lw lr rl rk rd rw rr hgt h =>
    exact absurd h corrective_left_ne_nil
  case case5 k2 d2 w2 ll lk ld lw lr rl rk rd rw rr hgt a xk xd aw b h ih =>
    injection hn with h1 h2 h3 h4 h5
    subst h1; subst h2; subst h3; subst h4; subst h5
    rw [delNode, if_pos hgt]
    split
    next h2 => exact absurd h2 corrective_left_ne_nil
    next a2 xk2 xd2 aw2 b2 h2 =>
      have hab : PNode.node a xk xd aw b = PNode.node a2 xk2 xd2 aw2 b2 := h.symm.trans h2
      injection hab with e1 e2 e3 e4 e5
      subst e1; subst e2; subst e3; subst e4; subst e5
      have hio := inorder_of_corrective_left h
      have hrec := ih rfl
      simp only [inorder_node]
      rw [hrec]
      have h3 : inorder (PNode.node ll lk ld lw lr) ++ inorder (PNode.node rl rk rd rw rr) =
          inorder a ++ (xk, xd) :: (inorder b ++ inorder (PNode.node rl rk rd rw rr)) := by
        rw [hio]
        simp
      simpa using h3.symm
  case case6 k2 d2 w2 ll lk ld lw lr rl rk rd rw rr hgt h =>
    exact absurd h corrective_right_ne_nil
  case case7 k2 d2 w2 ll lk ld lw lr rl rk rd rw rr hgt a xk xd aw b h ih =>
    injection hn with h1 h2 h3 h4 h5
    subst h1; subst h2; subst h3; subst h4; subst h5
    rw [delNode, if_neg hgt]
    split
    next h2 => exact absurd h2 corrective_right_ne_nil
    next a2 xk2 xd2 aw2 b2 h2 =>
      have hab : PNode.node a xk xd aw b = PNode.node a2 xk2 xd2 aw2 b2 := h.symm.trans h2
      injection hab with e1 e2 e3 e4 e5
      subst e1; subst e2; subst e3; subst e4; subst e5
      have hio := inorder_of_corrective_right h
      have hrec := ih rfl
      simp only [inorder_node]
      rw [hrec]
      have h3 : inorder (PNode.node ll lk ld lw lr) ++ inorder (PNode.node rl rk rd rw rr) =
          (inorder (PNode.node ll lk ld lw lr) ++ inorder a) ++ (xk, xd) :: inorder b := by
        rw [hio]
        simp
      simpa using h3.symm

theorem weight_pos {n : PNode} (h : weightOk n = true) : 1 ≤ WEIGHT n := by
  rw [weight_eq_size h]
  omega

/-- The splice at the end of the rotate-down loop leaves every remaining
stored weight in this subtree consistent, with the total down by one. -/
theorem delNode_weight (n : PNode) {l r : PNode} {k d w : Nat}
    (hn : n = .node l k d w r) (hok : weightOk n = true) :
    weightOk (delNode n) = true ∧ WEIGHT (delNode n) + 1 = WEIGHT n := by
  induction n using delNode.induct generalizing l k d w r
  case case1 => simp at hn
  case case2 k2 d2 w2 r2 =>
    rw [delNode]
    rw [weightOk_node] at hok
    obtain ⟨hw, hl, hr⟩ := hok
    refine ⟨hr, ?_⟩
    simp [hw]
    omega
  case case3 k2 d2 w2 ll lk ld lw lr =>
    rw [delNode]
    rw [weightOk_node] at hok
    obtain ⟨hw, hl, hr⟩ := hok
    refine ⟨hl, ?_⟩
    simp [hw]
  case case4 k2 d2 w2 ll lk ld lw lr rl rk rd rw rr hgt h =>
    exact absurd h corrective_left_ne_nil
  case case5 k2 d2 w2 ll lk ld lw lr rl rk rd rw rr hgt a xk xd aw b h ih =>
    rw [weightOk_node] at hok
    obtain ⟨hw, hl, hr⟩ := hok
    obtain ⟨hcOk, hcW⟩ := weightOk_of_corrective_left hl h
    rw [weightOk_node] at hcOk
    obtain ⟨haw, haOk, hbOk⟩ := hcOk
    have hinner : weightOk (PNode.node b k2 d2
        (WEIGHT b + WEIGHT (PNode.node rl rk rd rw rr)) (PNode.node rl rk rd rw rr)) = true := by
      rw [weightOk_node]
      exact ⟨rfl, hbOk, hr⟩
    obtain ⟨i1, i2⟩ := ih rfl hinner
    rw [delNode, if_pos hgt]
    split
    next h2 => exact absurd h2 corrective_left_ne_nil
    next a2 xk2 xd2 aw2 b2 h2 =>
      have hab : PNode.node a xk xd aw b = PNode.node a2 xk2 xd2 aw2 b2 := h.symm.trans h2
      injection hab with e1 e2 e3 e4 e5
      subst e1; subst e2; subst e3; subst e4; subst e5
      have hwb := weight_pos hbOk
      have hwr := weight_pos hr
      have hwa := weight_pos haOk
      constructor
      · rw [weightOk_node]
        refine ⟨?_, haOk, i1⟩
        simp only [WEIGHT_node] at hw hcW haw i2 ⊢
        omega
      · simp only [WEIGHT_node] at hw hcW haw i2 ⊢
        omega
  case case6 k2 d2 w2 ll lk ld lw lr rl rk rd rw rr hgt h =>
    exact absurd h corrective_right_ne_nil
  case case7 k2 d2 w2 ll lk ld lw lr rl rk rd rw rr hgt a xk xd aw b h ih =>
    rw [weightOk_node] at hok
    obtain ⟨hw, hl, hr⟩ := hok
    obtain ⟨hcOk, hcW⟩ := weightOk_of_corrective_right hr h
    rw [weightOk_node] at hcOk
    obtain ⟨haw, haOk, hbOk⟩ := hcOk
    have hinner : weightOk (PNode.node (PNode.node ll lk ld lw lr) k2 d2
        (WEIGHT (PNode.node ll lk ld lw lr) + WEIGHT a) a) = true := by
      rw [weightOk_node]
      exact ⟨rfl, hl, haOk⟩
    obtain ⟨i1, i2⟩ := ih rfl hinner
    rw [delNode, if_neg hgt]
    split
    next h2 => exact absurd h2 corrective_right_ne_nil
    next a2 xk2 xd2 aw2 b2 h2 =>
      have hab : PNode.node a xk xd aw b = PNode.node a2 xk2 xd2 aw2 b2 := h.symm.trans h2
      injection hab with e1 e2 e3 e4 e5
      subst e1; subst e2; subst e3; subst e4; subst e5
      have hwb := weight_pos hbOk
      have hwl := weight_pos hl
      have hwa := weight_pos haOk
      constructor
      · rw [weightOk_node]
        refine ⟨?_, i1, hbOk⟩
        simp only [WEIGHT_node] at hw hcW haw i2 ⊢
        omega
      · simp only [WEIGHT_node] at hw hcW haw i2 ⊢
        omega

/-! ### remove_go semantic lemmas -/

theorem remove_go_lt {key k d w : Nat} {l r : PNode} (h : key < k) :
    remove_go key (.node l k d w r) =
      (remove_go key l).map (fun l' => .node l' k d (w - 1) r) := by
  simp only [remove_go]
  rw [if_pos (dcmp_lt.mpr h)]

theorem remove_go_gt {key k d w : Nat} {l r : PNode} (h : k < key) :
    remove_go key (.node l k d w r) =
      (remove_go key r).map (fun r' => .node l k d (w - 1) r') := by
  simp only [remove_go]
  rw [if_neg (by rw [dcmp_lt]; omega), if_pos (dcmp_gt.mpr h)]

theorem remove_go_eq {key k d w : Nat} {l r : PNode} (h : key = k) :
    remove_go key (.node l k d w r) = some (delNode (.node l k d w r)) := by
  subst h
  simp only [remove_go]
  rw [if_neg (by rw [dcmp_lt]; omega), if_neg (by rw [dcmp_gt]; omega)]

/-- Removing a key that is nowhere in the tree reports not-found, leaving
the tree untouched. -/
theorem remove_absent {t : PNode} {key : Nat} (hk : key ∉ keys t) :
    remove_go key t = none := by
  induction t with
  | nil => rfl
  | node l k d w r ihl ihr =>
    rw [keys_node] at hk
    have hne : key ≠ k := fun h => hk (by simp [h])
    rcases Nat.lt_trichotomy key k with h | h | h
    · rw [remove_go_lt h, ihl (fun hx => hk (List.mem_append.mpr (Or.inl hx)))]
      rfl
    · exact absurd h hne
    · rw [remove_go_gt h, ihr (fun hx => hk (by simp [hx]))]
      rfl

/-- Removing a present key succeeds and drops exactly that pair from the
in-order association list. -/
theorem remove_present {t : PNode} {key : Nat} (hb : bst t = true) (hk : key ∈ keys t) :
    ∃ t', remove_go key t = some t' ∧
      inorder t' = (inorder t).filter (fun p => p.1 != key) := by
  induction t with
  | nil => simp at hk
  | node l k d w r ihl ihr =>
    rw [bst_node] at hb
    obtain ⟨hlk, hrk, hbl, hbr⟩ := hb
    rw [keys_node] at hk
    have hlp : ∀ p ∈ inorder l, p.1 < k := fun p hp =>
      hlk p.1 (List.mem_map_of_mem Prod.fst hp)
    have hrp : ∀ p ∈ inorder r, k < p.1 := fun p hp =>
      hrk p.1 (List.mem_map_of_mem Prod.fst hp)
    rcases Nat.lt_trichotomy key k with h | h | h
    · have hkl : key ∈ keys l := by
        rcases List.mem_append.mp hk with hx | hx
        · exact hx
        · rcases List.mem_cons.mp hx with hx | hx
          · omega
          · have := hrk key hx
            omega
      obtain ⟨l', hl', hio⟩ := ihl hbl hkl
      refine ⟨.node l' k d (w - 1) r, ?_, ?_⟩
      · rw [remove_go_lt h, hl']
        rfl
      · have hkk : (k != key) = true := by simp; omega
        have h2 : (inorder r).filter (fun p => p.1 != key) = inorder r := by
          apply List.filter_eq_self.mpr
          intro p hp
          have := hrp p hp
          simp
          omega
        simp only [inorder_node, List.filter_append, List.filter_cons]
        simp [hio, hkk, h2]
    · subst h
      refine ⟨delNode (.node l key d w r), remove_go_eq rfl, ?_⟩
      rw [inorder_delNode _ rfl]
      have h2 : (inorder l).filter (fun p => p.1 != key) = inorder l := by
        apply List.filter_eq_self.mpr
        intro p hp
        have := hlp p hp
        simp
        omega
      have h3 : (inorder r).filter (fun p => p.1 != key) = inorder r := by
        apply List.filter_eq_self.mpr
        intro p hp
        have := hrp p hp
        simp
        omega
      simp only [inorder_node, List.filter_append, List.filter_cons]
      simp [h2, h3]
    · have hkr : key ∈ keys r := by
        rcases List.mem_append.mp hk with hx | hx
        · have := hlk key hx
          omega
        · rcases List.mem_cons.mp hx with hx | hx
          · omega
          · exact hx
      obtain ⟨r', hr', hio⟩ := ihr hbr hkr
      refine ⟨.node l k d (w - 1) r', ?_, ?_⟩
      · rw [remove_go_gt h, hr']
        rfl
      · have hkk : (k != key) = true := by simp; omega
        have h2 : (inorder l).filter (fun p => p.1 != key) = inorder l := by
          apply List.filter_eq_self.mpr
          intro p hp
          have := hlp p hp
          simp
          omega
        simp only [inorder_node, List.filter_append, List.filter_cons]
        simp [hio, hkk, h2]

/-- Weight bookkeeping of a successful removal: every node kept is an
ancestor whose stored weight drops by exactly one, or is untouched, so the
weight invariant survives and the total drops by one. -/
theorem remove_weight {t t' : PNode} {key : Nat} (hok : weightOk t = true)
    (h : remove_go key t = some t') :
    weightOk t' = true ∧ WEIGHT t' + 1 = WEIGHT t := by
  induction t generalizing t' with
  | nil => simp [remove_go] at h
  | node l k d w r ihl ihr =>
    rw [weightOk_node] at hok
    obtain ⟨hw, hl, hr⟩ := hok
    rcases Nat.lt_trichotomy key k with hc | hc | hc
    · rw [remove_go_lt hc] at h
      rcases ho : remove_go key l with _ | l'
      · rw [ho] at h
        exact Option.noConfusion h
      · rw [ho] at h
        simp only [Option.map_some'] at h
        obtain ⟨i1, i2⟩ := ihl hl ho
        have hwr := weight_pos hr
        have ht := Option.some_inj.mp h
        subst ht
        constructor
        · rw [weightOk_node]
          refine ⟨?_, i1, hr⟩
          omega
        · show w - 1 + 1 = w
          omega
    · subst hc
      rw [remove_go_eq rfl] at h
      have hok2 : weightOk (PNode.node l key d w r) = true := by
        rw [weightOk_node]
        exact ⟨hw, hl, hr⟩
      obtain ⟨i1, i2⟩ := delNode_weight _ rfl hok2
      have ht : delNode (PNode.node l key d w r) = t' := Option.some_inj.mp h
      subst ht
      exact ⟨i1, i2⟩
    · rw [remove_go_gt hc] at h
      rcases ho : remove_go key r with _ | r'
      · rw [ho] at h
        exact Option.noConfusion h
      · rw [ho] at h
        simp only [Option.map_some'] at h
        obtain ⟨i1, i2⟩ := ihr hr ho
        have hwl := weight_pos hl
        have ht := Option.some_inj.mp h
        subst ht
        constructor
        · rw [weightOk_node]
          refine ⟨?_, hl, i1⟩
          omega
        · show w - 1 + 1 = w
          omega

/-- Removal keeps the search tree ordering: the surviving pairs are a
sublist of the original in-order list. -/
theorem bst_remove {t t' : PNode} {key : Nat} (hb : bst t = true)
    (h : remove_go key t = some t') : bst t' = true := by
  by_cases hk : key ∈ keys t
  · obtain ⟨t'', h2, hio⟩ := remove_present hb hk
    rw [h] at h2
    have ht : t' = t'' := Option.some_inj.mp h2
    subst ht
    rw [bst_iff_pairwise, pairwise_keys_iff, hio]
    exact List.Pairwise.sublist (List.filter_sublist _)
      (pairwise_keys_iff.mp (bst_iff_pairwise.mp hb))
  · rw [remove_absent hk] at h
    simp at h

/-- After a successful removal the removed key is gone. -/
theorem search_remove {t t' : PNode} {key : Nat} (hb : bst t = true)
    (h : remove_go key t = some t') : search_node key t' = 0 := by
  by_cases hk : key ∈ keys t
  · obtain ⟨t'', h2, hio⟩ := remove_present hb hk
    rw [h] at h2
    have ht : t' = t'' := Option.some_inj.mp h2
    subst ht
    apply search_absent
    rw [keys]
    intro hmem
    rw [hio] at hmem
    rcases List.mem_map.mp hmem with ⟨p, hp, hp2⟩
    have := List.of_mem_filter hp
    simp at this
    omega
  · rw [remove_absent hk] at h
    simp at h

/-! ### Reachable trees and their invariants -/

/-- Trees reachable from a fresh empty tree (`pr_tree_new`) by any sequence
of insert, probe, remove and clear calls. -/
inductive Reachable : pr_tree → Prop
  | empty : Reachable ⟨.nil, 0⟩
  | ins (t : pr_tree) (key datum : Nat) (ow ok : Bool) :
      Reachable t → Reachable (pr_tree_insert t key datum ow ok).1
  | prb (t : pr_tree) (key datum : Nat) (ok : Bool) :
      Reachable t → Reachable (pr_tree_probe t key datum ok).1
  | rem (t : pr_tree) (key : Nat) :
      Reachable t → Reachable (pr_tree_remove t key).1
  | clr (t : pr_tree) :
      Reachable t → Reachable (pr_tree_empty t).1

theorem assocD_of_mem {L : List (Nat × Nat)} {key d : Nat}
    (hp : L.Pairwise (fun p q => p.1 < q.1)) (hm : (key, d) ∈ L) :
    assocD key L = d := by
  induction L with
  | nil => simp at hm
  | cons p L ih =>
    obtain ⟨a, b⟩ := p
    rw [List.pairwise_cons] at hp
    rcases List.mem_cons.mp hm with hm | hm
    · rw [Prod.ext_iff] at hm
      obtain ⟨h1, h2⟩ := hm
      simp only at h1 h2
      simp only [assocD]
      rw [if_pos h1]
      exact h2.symm
    · have ha : a < key := by
        have := hp.1 (key, d) hm
        simpa using this
      simp only [assocD]
      rw [if_neg (by omega)]
      exact ih hp.2 hm

/-- Search hit: under the ordering invariant the stored datum comes back. -/
theorem search_present {t : PNode} {key d : Nat} (hb : bst t = true)
    (hm : (key, d) ∈ inorder t) : search_node key t = d := by
  rw [search_eq_assocD hb]
  exact assocD_of_mem (pairwise_keys_iff.mp (bst_iff_pairwise.mp hb)) hm

/-- The weight field and search ordering invariants hold in every reachable
tree. -/
theorem reachable_invariant {t : pr_tree} (h : Reachable t) :
    weightOk t.root = true ∧ bst t.root = true := by
  induction h with
  | empty => exact ⟨rfl, rfl⟩
  | ins t key datum ow ok ht ih =>
    obtain ⟨hw, hb⟩ := ih
    exact ⟨(insert_weightOk hw).1, bst_insert hb⟩
  | prb t key datum ok ht ih =>
    obtain ⟨hw, hb⟩ := ih
    show weightOk (probe_go key datum ok t.root).1 = true ∧
      bst (probe_go key datum ok t.root).1 = true
    by_cases hk : key ∈ keys t.root
    · rcases List.mem_map.mp hk with ⟨p, hp, hp2⟩
      obtain ⟨pk, pd⟩ := p
      simp only at hp2
      subst hp2
      rw [probe_present hb hp]
      exact ⟨hw, hb⟩
    · rw [probe_absent hk]
      cases ok
      · rw [insert_absent_fail hk]
        exact ⟨hw, hb⟩
      · exact ⟨(insert_weightOk hw).1, bst_insert hb⟩
  | rem t key ht ih =>
    obtain ⟨hw, hb⟩ := ih
    rcases ho : remove_go key t.root with _ | rt
    · simp [pr_tree_remove, ho]
      exact ⟨hw, hb⟩
    · simp [pr_tree_remove, ho]
      exact ⟨(remove_weight hw ho).1, bst_remove hb ho⟩
  | clr t ht ih =>
    exact ⟨rfl, rfl⟩

/-! ### The rotate-down step of removal -/

theorem remove_descend_left {ll lr rl rr a b : PNode}
    {lk ld lw rk rd rw k d w xk xd aw : Nat}
    (hgt : WEIGHT (.node ll lk ld lw lr) > WEIGHT (.node rl rk rd rw rr))
    (hsplit : (if WEIGHT ll < WEIGHT lr
        then rot_left (.node ll lk ld lw lr) else .node ll lk ld lw lr) =
      PNode.node a xk xd aw b) :
    remove_descend (.node (.node ll lk ld lw lr) k d w (.node rl rk rd rw rr)) =
      .node b k d (WEIGHT b + WEIGHT (.node rl rk rd rw rr)) (.node rl rk rd rw rr) := by
  rw [remove_descend]
  rw [if_pos hgt, hsplit]

theorem remove_descend_right {ll lr rl rr a b : PNode}
    {lk ld lw rk rd rw k d w xk xd aw : Nat}
    (hgt : ¬ WEIGHT (.node ll lk ld lw lr) > WEIGHT (.node rl rk rd rw rr))
    (hsplit : (if WEIGHT rr < WEIGHT rl
        then rot_right (.node rl rk rd rw rr) else .node rl rk rd rw rr) =
      PNode.node a xk xd aw b) :
    remove_descend (.node (.node ll lk ld lw lr) k d w (.node rl rk rd rw rr)) =
      .node (.node ll lk ld lw lr) k d (WEIGHT (.node ll lk ld lw lr) + WEIGHT a) a := by
  rw [remove_descend]
  rw [if_neg hgt, hsplit]

theorem delNode_left {ll lr rl rr a b : PNode}
    {lk ld lw rk rd rw k d w xk xd aw : Nat}
    (hgt : WEIGHT (.node ll lk ld lw lr) > WEIGHT (.node rl rk rd rw rr))
    (hsplit : (if WEIGHT ll < WEIGHT lr
        then rot_left (.node ll lk ld lw lr) else .node ll lk ld lw lr) =
      PNode.node a xk xd aw b) :
    delNode (.node (.node ll lk ld lw lr) k d w (.node rl rk rd rw rr)) =
      .node a xk xd (WEIGHT a + (WEIGHT b + WEIGHT (.node rl rk rd rw rr)) - 1)
        (delNode (.node b k d (WEIGHT b + WEIGHT (.node rl rk rd rw rr))
          (.node rl rk rd rw rr))) := by
  rw [delNode, if_pos hgt]
  split
  next h2 => exact absurd h2 corrective_left_ne_nil
  next a2 xk2 xd2 aw2 b2 h2 =>
    have hab : PNode.node a xk xd aw b = PNode.node a2 xk2 xd2 aw2 b2 :=
      hsplit.symm.trans h2
    injection hab with e1 e2 e3 e4 e5
    subst e1; subst e2; subst e3; subst e4; subst e5
    rfl

theorem delNode_right {ll lr rl rr a b : PNode}
    {lk ld lw rk rd rw k d w xk xd aw : Nat}
    (hgt : ¬ WEIGHT (.node ll lk ld lw lr) > WEIGHT (.node rl rk rd rw rr))
    (hsplit : (if WEIGHT rr < WEIGHT rl
        then rot_right (.node rl rk rd rw rr) else .node rl rk rd rw rr) =
      PNode.node a xk xd aw b) :
    delNode (.node (.node ll lk ld lw lr) k d w (.node rl rk rd rw rr)) =
      .node (delNode (.node (.node ll lk ld lw lr) k d
          (WEIGHT (.node ll lk ld lw lr) + WEIGHT a) a))
        xk xd (WEIGHT (.node ll lk ld lw lr) + WEIGHT a + WEIGHT b - 1) b := by
  rw [delNode, if_neg hgt]
  split
  next h2 => exact absurd h2 corrective_right_ne_nil
  next a2 xk2 xd2 aw2 b2 h2 =>
    have hab : PNode.node a xk xd aw b = PNode.node a2 xk2 xd2 aw2 b2 :=
      hsplit.symm.trans h2
    injection hab with e1 e2 e3 e4 e5
    subst e1; subst e2; subst e3; subst e4; subst e5
    rfl

/-! ### Parent pointers as a zipper: node_min, node_max, node_next, node_prev -/

/-- The parent chain of a node, as a zipper context: `inL k d w r up` says
the current subtree is the llink of a node with fields (k, d, w) whose rlink
is `r`; `inR l k d w up` says it is the rlink of a node whose llink is `l`.
This is exactly the information the parent walks of pr_tree.c read. -/
inductive Ctx where
  | top : Ctx
  | inL (k d w : Nat) (r : PNode) (up : Ctx) : Ctx
  | inR (l : PNode) (k d w : Nat) (up : Ctx) : Ctx
deriving DecidableEq, Repr

/-- A position inside a tree: context of the focused node, focused subtree. -/
abbrev Loc := Ctx × PNode

/-- Rebuild the whole tree from a location. -/
def plug : Ctx → PNode → PNode
  | .top, t => t
  | .inL k d w r up, t => plug up (.node t k d w r)
  | .inR l k d w up, t => plug up (.node l k d w t)

/-- `node_min` (pr_tree.c lines 582-590): descend left links. -/
def node_min_loc (c : Ctx) : PNode → Loc
  | .nil => (c, .nil)
  | .node .nil k d w r => (c, .node .nil k d w r)
  | .node (.node a ak ad aw b) k d w r =>
      node_min_loc (.inL k d w r c) (.node a ak ad aw b)

/-- `node_max` (pr_tree.c lines 592-600): descend right links. -/
def node_max_loc (c : Ctx) : PNode → Loc
  | .nil => (c, .nil)
  | .node l k d w .nil => (c, .node l k d w .nil)
  | .node l k d w (.node a ak ad aw b) =>
      node_max_loc (.inR l k d w c) (.node a ak ad aw b)

/-- The parent-chain ascent of `node_next` (pr_tree.c lines 614-619): climb
while the current node is a right child, stop at the first parent entered
from its left child, unbound at the root. -/
def ascend_right : Ctx → PNode → Option Loc
  | .top, _ => none
  | .inL k d w r up, t => some (up, .node t k d w r)
  | .inR l k d w up, t => ascend_right up (.node l k d w t)

/-- Mirror ascent of `node_prev` (pr_tree.c lines 634-639). -/
def ascend_left : Ctx → PNode → Option Loc
  | .top, _ => none
  | .inR l k d w up, t => some (up, .node l k d w t)
  | .inL k d w r up, t => ascend_left up (.node t k d w r)

/-- `node_next` (pr_tree.c lines 602-620): minimum of the right subtree if
there is one, else the parent ascent. -/
def node_next_loc : Loc → Option Loc
  | (c, .node l k d w (.node a ak ad aw b)) =>
      some (node_min_loc (.inR l k d w c) (.node a ak ad aw b))
  | (c, .node l k d w .nil) => ascend_right c (.node l k d w .nil)
  | (_, .nil) => none

/-- `node_prev` (pr_tree.c lines 622-640), mirror image. -/
def node_prev_loc : Loc → Option Loc
  | (c, .node (.node a ak ad aw b) k d w r) =>
      some (node_max_loc (.inL k d w r c) (.node a ak ad aw b))
  | (c, .node .nil k d w r) => ascend_left c (.node .nil k d w r)
  | (_, .nil) => none

/-- The `pr_itor` struct (pr_tree.c lines 39-42): the bound tree (its root)
and the current node, kept as a location so the parent chain is available;
`none` is the unbound state (`itor->node == NULL`). -/
structure pr_itor where
  tree : PNode
  node : Option Loc
deriving DecidableEq

/-- `pr_itor_first` (pr_tree.c lines 887-897). -/
def pr_itor_first (i : pr_itor) : pr_itor :=
  match i.tree with
  | .nil => { i with node := none }
  | .node l k d w r => { i with node := some (node_min_loc .top (.node l k d w r)) }

/-- `pr_itor_last` (pr_tree.c lines 899-909). -/
def pr_itor_last (i : pr_itor) : pr_itor :=
  match i.tree with
  | .nil => { i with node := none }
  | .node l k d w r => { i with node := some (node_max_loc .top (.node l k d w r)) }

/-- `pr_itor_new` (pr_tree.c lines 766-779): bind the tree, then position
with pr_itor_first. -/
def pr_itor_new (t : PNode) : pr_itor :=
  pr_itor_first ⟨t, none⟩

/-- `pr_itor_next` (pr_tree.c lines 827-837). -/
def pr_itor_next (i : pr_itor) : pr_itor :=
  match i.node with
  | none => pr_itor_first i
  | some loc => { i with node := node_next_loc loc }

/-- `pr_itor_prev` (pr_tree.c lines 839-849). -/
def pr_itor_prev (i : pr_itor) : pr_itor :=
  match i.node with
  | none => pr_itor_last i
  | some loc => { i with node := node_prev_loc loc }

/-- `pr_itor_valid` (pr_tree.c lines 811-817). -/
def pr_itor_valid (i : pr_itor) : Bool :=
  i.node.isSome

/-- `pr_itor_invalidate` (pr_tree.c lines 819-825). -/
def pr_itor_invalidate (i : pr_itor) : pr_itor :=
  { i with node := none }

/-- `pr_itor_key` (pr_tree.c lines 934-941): current key, or null (0). -/
def pr_itor_key (i : pr_itor) : Nat :=
  match i.node with
  | some (_, .node _ k _ _ _) => k
  | some (_, .nil) => 0
  | none => 0

/-- `pr_itor_data` (pr_tree.c lines 943-950): current datum, or null (0). -/
def pr_itor_data (i : pr_itor) : Nat :=
  match i.node with
  | some (_, .node _ _ d _ _) => d
  | some (_, .nil) => 0
  | none => 0

/-- The visit sequence of `pr_tree_walk` (pr_tree.c lines 513-530) with a
visitor that always continues: start at node_min of the root and follow
node_next; the fuel bounds the loop and `size t` steps always suffice. -/
def walk_from : Nat → Option Loc → List (Nat × Nat)
  | 0, _ => []
  | _ + 1, none => []
  | _ + 1, some (_, .nil) => []
  | fuel + 1, some (c, .node l k d w r) =>
      (k, d) :: walk_from fuel (node_next_loc (c, .node l k d w r))

/-- The full walk sequence of a tree. -/
def pr_tree_walk_list (t : PNode) : List (Nat × Nat) :=
  match t with
  | .nil => []
  | .node l k d w r => walk_from (size (.node l k d w r))
      (some (node_min_loc .top (.node l k d w r)))

/-- The key-datum sequence seen by driving a cursor forward with
pr_itor_next until it goes unbound. -/
def itor_list : Nat → pr_itor → List (Nat × Nat)
  | 0, _ => []
  | fuel + 1, i =>
    match i.node with
    | none => []
    | some (_, .nil) => []
    | some (_, .node _ k d _ _) => (k, d) :: itor_list fuel (pr_itor_next i)

/-! ### Zipper semantics -/

/-- Pairs that come after the hole, reading the context upward. -/
def ctx_after : Ctx → List (Nat × Nat)
  | .top => []
  | .inL k d w r up => (k, d) :: (inorder r ++ ctx_after up)
  | .inR _ _ _ _ up => ctx_after up

/-- Pairs that come before the hole, nearest first. -/
def ctx_before : Ctx → List (Nat × Nat)
  | .top => []
  | .inR l k d w up => (k, d) :: ((inorder l).reverse ++ ctx_before up)
  | .inL _ _ _ _ up => ctx_before up

/-- The focused pair and everything after it, in key order. -/
def loc_after : Loc → List (Nat × Nat)
  | (c, .nil) => ctx_after c
  | (c, .node _ k d _ r) => (k, d) :: (inorder r ++ ctx_after c)

/-- The focused pair and everything before it, nearest first. -/
def loc_before : Loc → List (Nat × Nat)
  | (c, .nil) => ctx_before c
  | (c, .node l k d _ _) => (k, d) :: ((inorder l).reverse ++ ctx_before c)

theorem loc_after_min (t : PNode) (c : Ctx) :
    loc_after (node_min_loc c t) = inorder t ++ ctx_after c := by
  induction t generalizing c with
  | nil => simp [node_min_loc, loc_after]
  | node l k d w r ihl ihr =>
    cases l with
    | nil => simp [node_min_loc, loc_after]
    | node a ak ad aw b =>
      rw [node_min_loc, ihl]
      simp [ctx_after]

theorem loc_before_max (t : PNode) (c : Ctx) :
    loc_before (node_max_loc c t) = (inorder t).reverse ++ ctx_before c := by
  induction t generalizing c with
  | nil => simp [node_max_loc, loc_before]
  | node l k d w r ihl ihr =>
    cases r with
    | nil => simp [node_max_loc, loc_before]
    | node a ak ad aw b =>
      rw [node_max_loc, ihr]
      simp [ctx_before]

theorem ascend_right_none {c : Ctx} {t : PNode} (h : ascend_right c t = none) :
    ctx_after c = [] := by
  induction c generalizing t with
  | top => rfl
  | inL k d w r up ih => simp [ascend_right] at h
  | inR l k d w up ih =>
    rw [ascend_right] at h
    exact ih h

theorem ascend_right_some {c : Ctx} {t : PNode} {loc : Loc}
    (h : ascend_right c t = some loc) :
    loc_after loc = ctx_after c ∧ loc.2 ≠ PNode.nil := by
  induction c generalizing t with
  | top => simp [ascend_right] at h
  | inL k d w r up ih =>
    rw [ascend_right] at h
    rw [← Option.some_inj.mp h]
    simp [loc_after, ctx_after]
  | inR l k d w up ih =>
    rw [ascend_right] at h
    rw [ctx_after]
    exact ih h

theorem ascend_left_none {c : Ctx} {t : PNode} (h : ascend_left c t = none) :
    ctx_before c = [] := by
  induction c generalizing t with
  | top => rfl
  | inR l k d w up ih => simp [ascend_left] at h
  | inL k d w r up ih =>
    rw [ascend_left] at h
    exact ih h

theorem ascend_left_some {c : Ctx} {t : PNode} {loc : Loc}
    (h : ascend_left c t = some loc) :
    loc_before loc = ctx_before c ∧ loc.2 ≠ PNode.nil := by
  induction c generalizing t with
  | top => simp [ascend_left] at h
  | inR l k d w up ih =>
    rw [ascend_left] at h
    rw [← Option.some_inj.mp h]
    simp [loc_before, ctx_before]
  | inL k d w r up ih =>
    rw [ascend_left] at h
    rw [ctx_before]
    exact ih h

theorem min_loc_focus {t : PNode} (ht : t ≠ .nil) (c : Ctx) :
    (node_min_loc c t).2 ≠ PNode.nil := by
  induction t generalizing c with
  | nil => exact absurd rfl ht
  | node l k d w r ihl ihr =>
    cases l with
    | nil => simp [node_min_loc]
    | node a ak ad aw b =>
      rw [node_min_loc]
      exact ihl (by simp) _

theorem max_loc_focus {t : PNode} (ht : t ≠ .nil) (c : Ctx) :
    (node_max_loc c t).2 ≠ PNode.nil := by
  induction t generalizing c with
  | nil => exact absurd rfl ht
  | node l k d w r ihl ihr =>
    cases r with
    | nil => simp [node_max_loc]
    | node a ak ad aw b =>
      rw [node_max_loc]
      exact ihr (by simp) _

/-- Stepping to the successor consumes exactly the head of `loc_after`:
the iterator runs down the in-order sequence. -/
theorem node_next_loc_after {c : Ctx} {l r : PNode} {k d w : Nat} :
    (node_next_loc (c, .node l k d w r) = none →
      inorder r ++ ctx_after c = []) ∧
    (∀ loc', node_next_loc (c, .node l k d w r) = some loc' →
      loc_after loc' = inorder r ++ ctx_after c ∧ loc'.2 ≠ PNode.nil) := by
  cases r with
  | nil =>
    constructor
    · intro h
      rw [node_next_loc] at h
      simp [ascend_right_none h]
    · intro loc' h
      rw [node_next_loc] at h
      obtain ⟨h1, h2⟩ := ascend_right_some h
      simpa using ⟨h1, h2⟩
  | node a ak ad aw b =>
    constructor
    · intro h
      rw [node_next_loc] at h
      exact Option.noConfusion h
    · intro loc' h
      rw [node_next_loc] at h
      rw [← Option.some_inj.mp h]
      constructor
      · rw [loc_after_min]
        simp [ctx_after]
      · exact min_loc_focus (by simp) _

/-- Mirror: stepping to the predecessor consumes the head of `loc_before`. -/
theorem node_prev_loc_before {c : Ctx} {l r : PNode} {k d w : Nat} :
    (node_prev_loc (c, .node l k d w r) = none →
      (inorder l).reverse ++ ctx_before c = []) ∧
    (∀ loc', node_prev_loc (c, .node l k d w r) = some loc' →
      loc_before loc' = (inorder l).reverse ++ ctx_before c ∧ loc'.2 ≠ PNode.nil) := by
  cases l with
  | nil =>
    constructor
    · intro h
      rw [node_prev_loc] at h
      simp [ascend_left_none h]
    · intro loc' h
      rw [node_prev_loc] at h
      obtain ⟨h1, h2⟩ := ascend_left_some h
      simpa using ⟨h1, h2⟩
  | node a ak ad aw b =>
    constructor
    · intro h
      rw [node_prev_loc] at h
      exact Option.noConfusion h
    · intro loc' h
      rw [node_prev_loc] at h
      rw [← Option.some_inj.mp h]
      constructor
      · rw [loc_before_max]
        simp [ctx_before]
      · exact max_loc_focus (by simp) _

theorem walk_from_none (fuel : Nat) : walk_from fuel none = [] := by
  cases fuel <;> rfl

theorem itor_list_unbound (fuel : Nat) (t : PNode) :
    itor_list fuel ⟨t, none⟩ = [] := by
  cases fuel <;> rfl

theorem walk_from_eq {fuel : Nat} : ∀ {loc : Loc}, loc.2 ≠ PNode.nil →
    (loc_after loc).length ≤ fuel → walk_from fuel (some loc) = loc_after loc := by
  induction fuel with
  | zero =>
    rintro ⟨c, f⟩ hf hl
    cases f with
    | nil => exact absurd rfl hf
    | node l k d w r => simp [loc_after] at hl
  | succ fuel ih =>
    rintro ⟨c, f⟩ hf hl
    cases f with
    | nil => exact absurd rfl hf
    | node l k d w r =>
      rw [walk_from]
      rcases hnext : node_next_loc (c, .node l k d w r) with _ | loc'
      · rw [walk_from_none]
        rw [loc_after]
        rw [node_next_loc_after.1 hnext]
      · obtain ⟨h1, h2⟩ := node_next_loc_after.2 loc' hnext
        have hlen : (loc_after loc').length ≤ fuel := by
          rw [h1]
          rw [loc_after] at hl
          simp only [List.length_cons, List.length_append] at hl ⊢
          omega
        rw [ih h2 hlen, h1, loc_after]

/-- The always-continue walk visits exactly the in-order sequence. -/
theorem walk_list_eq_inorder (t : PNode) : pr_tree_walk_list t = inorder t := by
  cases t with
  | nil => rfl
  | node l k d w r =>
    rw [pr_tree_walk_list]
    have hlen : (loc_after (node_min_loc .top (.node l k d w r))).length
        ≤ size (.node l k d w r) := by
      rw [loc_after_min]
      simp only [ctx_after, List.append_nil]
      rw [← size_eq_length]
    rw [walk_from_eq (min_loc_focus (by simp) _) hlen]
    rw [loc_after_min]
    simp [ctx_after]

theorem itor_list_eq_walk {fuel : Nat} : ∀ {t : PNode} {loc : Loc},
    itor_list fuel ⟨t, some loc⟩ = walk_from fuel (some loc) := by
  induction fuel with
  | zero => intro t loc; rfl
  | succ fuel ih =>
    rintro t ⟨c, f⟩
    cases f with
    | nil => rfl
    | node l k d w r =>
      rw [walk_from, itor_list]
      simp only
      rw [pr_itor_next]
      simp only
      rcases hnext : node_next_loc (c, .node l k d w r) with _ | loc'
      · rw [walk_from_none, itor_list_unbound]
      · rw [ih]

/-- Driving a fresh cursor forward visits the same sequence as the walk. -/
theorem itor_seq_eq_walk (t : PNode) :
    itor_list (size t) (pr_itor_new t) = pr_tree_walk_list t := by
  cases t with
  | nil => rfl
  | node l k d w r =>
    rw [pr_itor_new, pr_itor_first]
    simp only
    rw [itor_list_eq_walk, pr_tree_walk_list]

/-! ### The cursor stays inside its tree -/

theorem plug_min (t : PNode) (c : Ctx) :
    plug (node_min_loc c t).1 (node_min_loc c t).2 = plug c t := by
  induction t generalizing c with
  | nil => rfl
  | node l k d w r ihl ihr =>
    cases l with
    | nil => rfl
    | node a ak ad aw b =>
      rw [node_min_loc, ihl]
      rfl

theorem plug_max (t : PNode) (c : Ctx) :
    plug (node_max_loc c t).1 (node_max_loc c t).2 = plug c t := by
  induction t generalizing c with
  | nil => rfl
  | node l k d w r ihl ihr =>
    cases r with
    | nil => rfl
    | node a ak ad aw b =>
      rw [node_max_loc, ihr]
      rfl

theorem plug_ascend_right {c : Ctx} {t : PNode} {loc : Loc}
    (h : ascend_right c t = some loc) :
    plug loc.1 loc.2 = plug c t := by
  induction c generalizing t with
  | top => simp [ascend_right] at h
  | inL k d w r up ih =>
    rw [ascend_right] at h
    rw [← Option.some_inj.mp h]
    rfl
  | inR l k d w up ih =>
    rw [ascend_right] at h
    rw [ih h]
    rfl

theorem plug_ascend_left {c : Ctx} {t : PNode} {loc : Loc}
    (h : ascend_left c t = some loc) :
    plug loc.1 loc.2 = plug c t := by
  induction c generalizing t with
  | top => simp [ascend_left] at h
  | inR l k d w up ih =>
    rw [ascend_left] at h
    rw [← Option.some_inj.mp h]
    rfl
  | inL k d w r up ih =>
    rw [ascend_left] at h
    rw [ih h]
    rfl

theorem plug_next {loc loc' : Loc} (h : node_next_loc loc = some loc') :
    plug loc'.1 loc'.2 = plug loc.1 loc.2 := by
  obtain ⟨c, f⟩ := loc
  cases f with
  | nil => simp [node_next_loc] at h
  | node l k d w r =>
    cases r with
    | nil =>
      rw [node_next_loc] at h
      exact plug_ascend_right h
    | node a ak ad aw b =>
      rw [node_next_loc] at h
      rw [← Option.some_inj.mp h, plug_min]
      rfl

theorem plug_prev {loc loc' : Loc} (h : node_prev_loc loc = some loc') :
    plug loc'.1 loc'.2 = plug loc.1 loc.2 := by
  obtain ⟨c, f⟩ := loc
  cases f with
  | nil => simp [node_prev_loc] at h
  | node l k d w r =>
    cases l with
    | nil =>
      rw [node_prev_loc] at h
      exact plug_ascend_left h
    | node a ak ad aw b =>
      rw [node_prev_loc] at h
      rw [← Option.some_inj.mp h, plug_max]
      rfl

theorem pairwise_head_min {k : Nat} {ks : List Nat}
    (h : (k :: ks).Pairwise (· < ·)) : ∀ x ∈ k :: ks, k ≤ x := by
  intro x hx
  rcases List.mem_cons.mp hx with hx | hx
  · omega
  · have := (List.pairwise_cons.mp h).1 x hx
    omega

/-! ### Tree creation -/

/-- The full `pr_tree` struct (pr_tree.c lines 32-37) with the comparator
field kept, for reasoning about `pr_tree_new`'s null-comparator fallback. -/
structure pr_tree_full where
  root : PNode
  count : Nat
  key_cmp : Nat → Nat → Int

/-- `pr_tree_new` (pr_tree.c lines 87-101): MALLOC is modelled by the
`allocOk` flag; on success the root is null, the count 0, and a null
comparator argument (modelled as `none`) is replaced by `dict_ptr_cmp`. -/
def pr_tree_new (key_cmp : Option (Nat → Nat → Int)) (allocOk : Bool) :
    Option pr_tree_full :=
  if allocOk then some ⟨.nil, 0, key_cmp.getD dict_ptr_cmp⟩ else none

/-! ### Further comparator and insertion helpers -/

theorem dcmp_eq_zero {a b : Nat} : dict_ptr_cmp a b = 0 ↔ a = b := by
  unfold dict_ptr_cmp
  split
  · constructor <;> (intro h; omega)
  · split <;> (constructor <;> (intro h; omega))

/-- A duplicate insert with overwrite on reports 0 without growing. -/
theorem insert_present_ow {t : PNode} {key v : Nat} {ok : Bool}
    (hb : bst t = true) (hk : key ∈ keys t) :
    (insert_go key v true ok t).2 = (0, false) := by
  induction t with
  | nil => simp at hk
  | node l k d w r ihl ihr =>
    rw [bst_node] at hb
    obtain ⟨hlk, hrk, hbl, hbr⟩ := hb
    rw [keys_node] at hk
    rcases Nat.lt_trichotomy key k with h | h | h
    · have hkl : key ∈ keys l := by
        rcases List.mem_append.mp hk with hx | hx
        · exact hx
        · rcases List.mem_cons.mp hx with hx | hx
          · omega
          · have := hrk key hx
            omega
      rw [insert_go_lt h]
      exact ihl hbl hkl
    · rw [insert_go_eq_ow h]
    · have hkr : key ∈ keys r := by
        rcases List.mem_append.mp hk with hx | hx
        · have := hlk key hx
          omega
        · rcases List.mem_cons.mp hx with hx | hx
          · omega
          · exact hx
      rw [insert_go_gt h]
      exact ihr hbr hkr

/-- After an insert with allocation succeeding, the key is in the list. -/
theorem key_mem_insPairs (key v : Nat) (ow : Bool) (A : List (Nat × Nat)) :
    key ∈ (insPairs key v ow true A).map Prod.fst := by
  induction A with
  | nil => simp [insPairs]
  | cons p A ih =>
    obtain ⟨a, b⟩ := p
    simp only [insPairs]
    rcases Nat.lt_trichotomy key a with h | h | h
    · rw [if_pos h]
      simp
    · rw [if_neg (by omega), if_neg (by omega)]
      subst h
      split <;> simp
    · rw [if_neg (by omega), if_pos h]
      simp only [List.map_cons, List.mem_cons]
      exact Or.inr ih

/-- Inserting an absent key with allocation succeeding stores exactly the
supplied pair. -/
theorem pair_mem_insPairs {key : Nat} (v : Nat) (ow : Bool)
    {A : List (Nat × Nat)} (hk : key ∉ A.map Prod.fst) :
    (key, v) ∈ insPairs key v ow true A := by
  induction A with
  | nil => simp [insPairs]
  | cons p A ih =>
    obtain ⟨a, b⟩ := p
    have hne : key ≠ a := by
      intro h
      exact hk (by simp [h])
    simp only [insPairs]
    rcases Nat.lt_trichotomy key a with h | h | h
    · rw [if_pos h]
      simp
    · exact absurd h hne
    · rw [if_neg (by omega), if_pos h]
      exact List.mem_cons_of_mem _ (ih (fun hx => hk (by simp [hx])))

/-- A successful insert leaves the key present in the tree. -/
theorem mem_keys_insert {t : PNode} (key v : Nat) (ow : Bool)
    (hb : bst t = true) :
    key ∈ keys (insert_go key v ow true t).1 := by
  rw [keys, inorder_insert hb]
  exact key_mem_insPairs key v ow (inorder t)

/-! ### Concrete trees for the balance-condition counterexample -/

/-- The tree built by inserting keys 2, 1, 4, 3, 5 (all with datum 0) into a
fresh tree, each time with overwrite off and allocation succeeding. -/
def cxBase : pr_tree :=
  (pr_tree_insert
    (pr_tree_insert
      (pr_tree_insert
        (pr_tree_insert
          (pr_tree_insert ⟨.nil, 0⟩ 2 0 false true).1
          1 0 false true).1
        4 0 false true).1
      3 0 false true).1
    5 0 false true).1

/-- `cxBase` after removing key 1. -/
def cxTree : pr_tree := (pr_tree_remove cxBase 1).1

/-! ### The claims -/

/-- Claim C1, counterexample: the tree reached by inserting keys 2, 1, 4, 3,
5 into a fresh tree and then removing key 1 is reachable, yet its root
violates the path-reduction balance condition.  The remove splice only
decremented the ancestor weights and ran no fixup (pr_tree.c lines 388-427),
leaving the root with subtree weights 1 and 4 whose heavier side has a
grandchild of weight 2 > 1. -/
theorem C1_remove_breaks_balance : Reachable cxTree ∧ bal cxTree.root = false := by
  constructor
  · unfold cxTree cxBase
    exact Reachable.rem _ 1 (Reachable.ins _ 5 0 false true
      (Reachable.ins _ 3 0 false true (Reachable.ins _ 4 0 false true
        (Reachable.ins _ 1 0 false true (Reachable.ins _ 2 0 false true
          Reachable.empty)))))
  · simp [cxTree, cxBase, pr_tree_remove, pr_tree_insert, insert_go, remove_go,
      delNode, fixup, node_new, dict_ptr_cmp, WEIGHT, bal, balAt, weightOk,
      llink, rlink]

/-- Claim C1, amended: after any sequence of operations the weight invariant
and the search ordering hold, and remove's single-child splice indeed only
decrements each surviving ancestor's weight by exactly one and runs no
fixup, so a successful remove lowers the total root weight by exactly one
while `weightOk` and `bst` survive.  The stronger part of the original
claim — that the path-reduction balance condition itself still holds after
each remove — is false; see the counterexample. -/
theorem C1_amended_remove_splice {t : pr_tree} (h : Reachable t) (key : Nat) :
    weightOk (pr_tree_remove t key).1.root = true ∧
    bst (pr_tree_remove t key).1.root = true ∧
    ((pr_tree_remove t key).2 = 0 →
      WEIGHT (pr_tree_remove t key).1.root + 1 = WEIGHT t.root) := by
  obtain ⟨hw, hb⟩ := reachable_invariant h
  rcases ho : remove_go key t.root with _ | rt
  · simp only [pr_tree_remove, ho]
    refine ⟨hw, hb, ?_⟩
    intro h2
    simp at h2
  · simp only [pr_tree_remove, ho]
    obtain ⟨i1, i2⟩ := remove_weight hw ho
    exact ⟨i1, bst_remove hb ho, fun _ => i2⟩

/-- Claim C1's amended statement at the concrete reachable tree `cxBase`
(keys 2, 1, 4, 3, 5) and key 1. -/
theorem C1_witness :
    weightOk (pr_tree_remove cxBase 1).1.root = true ∧
    bst (pr_tree_remove cxBase 1).1.root = true ∧
    ((pr_tree_remove cxBase 1).2 = 0 →
      WEIGHT (pr_tree_remove cxBase 1).1.root + 1 = WEIGHT cxBase.root) := by
  refine C1_amended_remove_splice ?_ 1
  unfold cxBase
  exact Reachable.ins _ 5 0 false true (Reachable.ins _ 3 0 false true
    (Reachable.ins _ 4 0 false true (Reachable.ins _ 1 0 false true
      (Reachable.ins _ 2 0 false true Reachable.empty))))

/-- Claim C2: the weight invariant (`weight = weight(left) + weight(right)`,
absent child counting 1) holds in every reachable tree; a fresh node has
weight 2; the insert walk raises the root weight by exactly one precisely
when a node was created (the per-ancestor `weight++` of pr_tree.c lines
313-317, observed at the topmost ancestor) while keeping the invariant; a
successful remove keeps the invariant and lowers the root weight by exactly
one; and a rotation keeps the invariant and the rotated subtree's total
weight, recomputing only the two rotated nodes' weights. -/
theorem C2_weight_invariant {t : pr_tree} (h : Reachable t) (key v : Nat)
    (ow ok : Bool) :
    weightOk t.root = true ∧
    WEIGHT (node_new key v) = 2 ∧
    weightOk (pr_tree_insert t key v ow ok).1.root = true ∧
    WEIGHT (pr_tree_insert t key v ow ok).1.root =
      WEIGHT t.root + (if (insert_go key v ow ok t.root).2.2 then 1 else 0) ∧
    (∀ t', remove_go key t.root = some t' →
      weightOk t' = true ∧ WEIGHT t' + 1 = WEIGHT t.root) ∧
    (∀ n : PNode, weightOk n = true →
      weightOk (rot_left n) = true ∧ WEIGHT (rot_left n) = WEIGHT n ∧
      weightOk (rot_right n) = true ∧ WEIGHT (rot_right n) = WEIGHT n) := by
  obtain ⟨hw, hb⟩ := reachable_invariant h
  obtain ⟨i1, i2⟩ := @insert_weightOk t.root key v ow ok hw
  refine ⟨hw, rfl, i1, i2, fun t' ht' => remove_weight hw ht', ?_⟩
  intro n hn
  obtain ⟨a1, a2⟩ := weightOk_rot_left hn
  obtain ⟨b1, b2⟩ := weightOk_rot_right hn
  exact ⟨a1, a2, b1, b2⟩

/-- Claim C2's invariants at concrete inputs: a reachable two-node tree
keeps the weight invariant after another insert, and a fresh node has
weight 2. -/
theorem C2_witness :
    weightOk (pr_tree_insert (pr_tree_insert ⟨PNode.nil, 0⟩ 4 0 false true).1
      2 0 false true).1.root = true ∧
    WEIGHT (node_new 9 9) = 2 :=
  ⟨(C2_weight_invariant (Reachable.ins _ 4 0 false true Reachable.empty)
      2 0 false true).2.2.1,
   (C2_weight_invariant Reachable.empty 9 9 false true).2.1⟩

/-- Claim C3: on a reachable tree, inserting an absent key and then
searching for it returns exactly the inserted value; removing a present key
returns 0 and a subsequent search returns the absent marker 0; removing an
absent key returns -1 and leaves the tree unchanged. -/
theorem C3_insert_remove_search {t : pr_tree} (h : Reachable t) (key v : Nat)
    (ow : Bool) :
    (key ∉ keys t.root →
      pr_tree_search (pr_tree_insert t key v ow true).1 key = v) ∧
    (key ∈ keys t.root → (pr_tree_remove t key).2 = 0 ∧
      pr_tree_search (pr_tree_remove t key).1 key = 0) ∧
    (key ∉ keys t.root → pr_tree_remove t key = (t, -1)) := by
  obtain ⟨hw, hb⟩ := reachable_invariant h
  refine ⟨?_, ?_, ?_⟩
  · intro hk
    exact search_insert_absent hb hk
  · intro hk
    obtain ⟨t', ht', hio⟩ := remove_present hb hk
    simp only [pr_tree_remove, ht']
    exact ⟨trivial, search_remove hb ht'⟩
  · intro hk
    simp only [pr_tree_remove, remove_absent hk]

/-- Claim C3 at concrete inputs: insert 7 ↦ 9 into the empty tree, search
finds 9; removing 7 then reports 0 and search afterwards reports absent. -/
theorem C3_witness :
    pr_tree_search (pr_tree_insert ⟨PNode.nil, 0⟩ 7 9 false true).1 7 = 9 ∧
    (pr_tree_remove (pr_tree_insert ⟨PNode.nil, 0⟩ 7 9 false true).1 7).2 = 0 ∧
    pr_tree_search
      (pr_tree_remove (pr_tree_insert ⟨PNode.nil, 0⟩ 7 9 false true).1 7).1 7 = 0 := by
  have h0 : Reachable (⟨PNode.nil, 0⟩ : pr_tree) := Reachable.empty
  have h1 : Reachable (pr_tree_insert ⟨PNode.nil, 0⟩ 7 9 false true).1 :=
    Reachable.ins _ 7 9 false true h0
  have hk1 : 7 ∈ keys (pr_tree_insert ⟨PNode.nil, 0⟩ 7 9 false true).1.root := by decide
  exact ⟨(C3_insert_remove_search h0 7 9 false).1 (by decide),
    ((C3_insert_remove_search h1 7 0 false).2.1 hk1).1,
    ((C3_insert_remove_search h1 7 0 false).2.1 hk1).2⟩

/-- Claim C4: insert returns 0 for a new key (and for a replacement when
overwrite is on), 1 for an existing key with overwrite off (handing the
identical tree back), and -1 only on allocation failure; a -1 return never
mutates the tree; and a second insert of the same key with overwrite off
leaves the tree unchanged. -/
theorem C4_insert_return_codes {t : pr_tree} (h : Reachable t) (key v v' : Nat)
    (ow : Bool) :
    (key ∉ keys t.root → (pr_tree_insert t key v ow true).2 = 0) ∧
    (key ∈ keys t.root → (pr_tree_insert t key v true true).2 = 0) ∧
    (key ∈ keys t.root → pr_tree_insert t key v false true = (t, 1)) ∧
    (pr_tree_insert t key v ow true).2 ≠ -1 ∧
    (∀ b : Bool, (pr_tree_insert t key v ow b).2 = -1 →
      (pr_tree_insert t key v ow b).1 = t) ∧
    pr_tree_insert (pr_tree_insert t key v false true).1 key v' false true =
      ((pr_tree_insert t key v false true).1, 1) := by
  obtain ⟨hw, hb⟩ := reachable_invariant h
  refine ⟨?_, ?_, ?_, ?_, ?_, ?_⟩
  · intro hk
    have he := @insert_absent_ok t.root key v ow hk
    show (insert_go key v ow true t.root).2.1 = 0
    rw [he]
  · intro hk
    have he := @insert_present_ow t.root key v true hb hk
    show (insert_go key v true true t.root).2.1 = 0
    rw [he]
  · intro hk
    have he := @insert_present_noow t.root key v true hb hk
    simp [pr_tree_insert, he]
  · show (insert_go key v ow true t.root).2.1 ≠ -1
    exact insert_no_fail
  · intro b
    cases b
    · by_cases hk : key ∈ keys t.root
      · cases ow
        · have he := @insert_present_noow t.root key v false hb hk
          intro h2
          rw [show (pr_tree_insert t key v false false).2
              = (insert_go key v false false t.root).2.1 from rfl, he] at h2
          simp at h2
        · have he := @insert_present_ow t.root key v false hb hk
          intro h2
          rw [show (pr_tree_insert t key v true false).2
              = (insert_go key v true false t.root).2.1 from rfl, he] at h2
          simp at h2
      · intro _
        have he := @insert_absent_fail t.root key v ow hk
        show (⟨(insert_go key v ow false t.root).1, _⟩ : pr_tree) = t
        rw [he]
        rfl
    · intro h2
      exact absurd h2 insert_no_fail
  · have hb1 : bst (insert_go key v false true t.root).1 = true := bst_insert hb
    have hk1 : key ∈ keys (insert_go key v false true t.root).1 :=
      mem_keys_insert key v false hb
    have he := @insert_present_noow (insert_go key v false true t.root).1 key v' true hb1 hk1
    simp [pr_tree_insert, he]

/-- Claim C4 at concrete inputs: inserting 3 into the empty tree returns 0,
and inserting 3 again with overwrite off returns 1 with the tree handed back
unchanged. -/
theorem C4_witness :
    (pr_tree_insert ⟨PNode.nil, 0⟩ 3 5 false true).2 = 0 ∧
    pr_tree_insert (pr_tree_insert ⟨PNode.nil, 0⟩ 3 5 false true).1 3 6 false true =
      ((pr_tree_insert ⟨PNode.nil, 0⟩ 3 5 false true).1, 1) :=
  ⟨(C4_insert_return_codes Reachable.empty 3 5 6 false).1 (by decide),
   (C4_insert_return_codes Reachable.empty 3 5 6 false).2.2.2.2.2⟩

/-- Claim C5: probing an existing key returns 0, fills the value slot with
the stored value and leaves the tree entirely unchanged; probing an absent
key inserts the supplied value, returns 1, a subsequent search returns that
value, and probing the same key again with a different value returns 0 with
the slot filled by the first value and the tree unchanged. -/
theorem C5_probe_semantics {t : pr_tree} (h : Reachable t) (key v v' d : Nat) :
    ((key, d) ∈ inorder t.root → pr_tree_probe t key v true = (t, 0, d)) ∧
    (key ∉ keys t.root →
      (pr_tree_probe t key v true).2.1 = 1 ∧
      pr_tree_search (pr_tree_probe t key v true).1 key = v ∧
      pr_tree_probe (pr_tree_probe t key v true).1 key v' true =
        ((pr_tree_probe t key v true).1, 0, v)) := by
  obtain ⟨hw, hb⟩ := reachable_invariant h
  constructor
  · intro hd
    have he := @probe_present t.root key v d true hb hd
    simp [pr_tree_probe, he]
  · intro hk
    have h1 : probe_go key v true t.root =
        ((insert_go key v false true t.root).1, 1, v, true) := by
      rw [probe_absent hk]
      simp
    have hb1 : bst (insert_go key v false true t.root).1 = true := bst_insert hb
    have hmem : (key, v) ∈ inorder (insert_go key v false true t.root).1 := by
      rw [inorder_insert hb]
      exact pair_mem_insPairs v false hk
    refine ⟨?_, ?_, ?_⟩
    · show (probe_go key v true t.root).2.1 = 1
      rw [h1]
    · show search_node key (probe_go key v true t.root).1 = v
      rw [h1]
      exact search_present hb1 hmem
    · have hroot : (pr_tree_probe t key v true).1.root =
          (insert_go key v false true t.root).1 := by
        show (probe_go key v true t.root).1 = _
        rw [h1]
      have he2 := @probe_present (insert_go key v false true t.root).1 key v' v true hb1 hmem
      show pr_tree_probe (pr_tree_probe t key v true).1 key v' true = _
      rw [pr_tree_probe]
      rw [hroot, he2]
      simp
      rw [← hroot]

/-- Claim C5 at concrete inputs, following the spec's own example: probe the
empty tree at absent key 10 with value 5 — newly inserted, search finds 5 —
then probe key 10 again with value 7: existing found, slot filled with 5,
tree unchanged. -/
theorem C5_witness :
    (pr_tree_probe ⟨PNode.nil, 0⟩ 10 5 true).2.1 = 1 ∧
    pr_tree_search (pr_tree_probe ⟨PNode.nil, 0⟩ 10 5 true).1 10 = 5 ∧
    pr_tree_probe (pr_tree_probe ⟨PNode.nil, 0⟩ 10 5 true).1 10 7 true =
      ((pr_tree_probe ⟨PNode.nil, 0⟩ 10 5 true).1, 0, 5) :=
  (C5_probe_semantics Reachable.empty 10 5 7 0).2 (by decide)

/-- Claim C6: on every reachable tree the in-order walk yields the stored
keys in strictly ascending comparator order, and forward cursor iteration
from a fresh cursor until it goes unbound yields exactly the walk's
sequence. -/
theorem C6_walk_ascending_iter_agree {t : pr_tree} (h : Reachable t) :
    ((pr_tree_walk_list t.root).map Prod.fst).Pairwise (· < ·) ∧
    itor_list (size t.root) (pr_itor_new t.root) = pr_tree_walk_list t.root := by
  obtain ⟨hw, hb⟩ := reachable_invariant h
  refine ⟨?_, itor_seq_eq_walk t.root⟩
  rw [walk_list_eq_inorder]
  exact bst_iff_pairwise.mp hb

/-- Claim C6 at a concrete reachable tree (keys 5 then 3): the walk's keys
are ascending and the cursor visits the same sequence. -/
theorem C6_witness :
    ((pr_tree_walk_list (pr_tree_insert (pr_tree_insert ⟨PNode.nil, 0⟩
        5 0 false true).1 3 0 false true).1.root).map Prod.fst).Pairwise (· < ·) ∧
    itor_list
      (size (pr_tree_insert (pr_tree_insert ⟨PNode.nil, 0⟩
        5 0 false true).1 3 0 false true).1.root)
      (pr_itor_new (pr_tree_insert (pr_tree_insert ⟨PNode.nil, 0⟩
        5 0 false true).1 3 0 false true).1.root) =
    pr_tree_walk_list (pr_tree_insert (pr_tree_insert ⟨PNode.nil, 0⟩
        5 0 false true).1 3 0 false true).1.root :=
  C6_walk_ascending_iter_agree
    (Reachable.ins _ 3 0 false true (Reachable.ins _ 5 0 false true Reachable.empty))

/-- Claim C7: the two-children loop of remove terminates — one
corrective-rotation-plus-rotate-down iteration hands the deletion a strictly
smaller subtree (the node it keeps chasing has strictly fewer nodes below
it), and on any search tree a remove of a present key indeed returns with a
result. -/
theorem C7_remove_two_children_terminates {ll lr rl rr : PNode}
    (lk ld lw rk rd rw k d w : Nat) :
    size (remove_descend (.node (.node ll lk ld lw lr) k d w (.node rl rk rd rw rr)))
      < size (.node (.node ll lk ld lw lr) k d w (.node rl rk rd rw rr)) ∧
    (∀ (t : PNode) (key : Nat), bst t = true → key ∈ keys t →
      ∃ t', remove_go key t = some t') := by
  constructor
  · by_cases hgt : WEIGHT (.node ll lk ld lw lr) > WEIGHT (.node rl rk rd rw rr)
    · rcases hsplit : (if WEIGHT ll < WEIGHT lr
          then rot_left (.node ll lk ld lw lr) else .node ll lk ld lw lr)
          with _ | ⟨a, xk, xd, aw, b⟩
      · exact absurd hsplit corrective_left_ne_nil
      · rw [remove_descend_left hgt hsplit]
        have hs := size_of_corrective_left hsplit
        simp only [size_node]
        omega
    · rcases hsplit : (if WEIGHT rr < WEIGHT rl
          then rot_right (.node rl rk rd rw rr) else .node rl rk rd rw rr)
          with _ | ⟨a, xk, xd, aw, b⟩
      · exact absurd hsplit corrective_right_ne_nil
      · rw [remove_descend_right hgt hsplit]
        have hs := size_of_corrective_right hsplit
        simp only [size_node]
        omega
  · intro t key hb hk
    obtain ⟨t', ht', _⟩ := remove_present hb hk
    exact ⟨t', ht'⟩

/-- Claim C8: a fresh cursor on an empty tree is unbound and on a non-empty
tree sits at the minimum key; next and prev on an unbound cursor behave as
first and last (staying unbound on an empty tree); and on a positioned
cursor they step to the in-order successor and predecessor, going unbound
exactly when none exists. -/
theorem C8_cursor_positioning {t : PNode} (hb : bst t = true) :
    (pr_itor_new PNode.nil).node = none ∧
    (t ≠ PNode.nil → pr_itor_valid (pr_itor_new t) = true ∧
      pr_itor_key (pr_itor_new t) ∈ keys t ∧
      (∀ x ∈ keys t, pr_itor_key (pr_itor_new t) ≤ x)) ∧
    (∀ i : pr_itor, i.node = none →
      pr_itor_next i = pr_itor_first i ∧ pr_itor_prev i = pr_itor_last i) ∧
    (pr_itor_next ⟨PNode.nil, none⟩ = (⟨PNode.nil, none⟩ : pr_itor) ∧
      pr_itor_prev ⟨PNode.nil, none⟩ = (⟨PNode.nil, none⟩ : pr_itor)) ∧
    (∀ (tr : PNode) (loc : Loc), loc.2 ≠ PNode.nil →
      ((pr_itor_next ⟨tr, some loc⟩).node = none → (loc_after loc).tail = []) ∧
      (∀ loc', (pr_itor_next ⟨tr, some loc⟩).node = some loc' →
        loc_after loc' = (loc_after loc).tail ∧ loc'.2 ≠ PNode.nil)) ∧
    (∀ (tr : PNode) (loc : Loc), loc.2 ≠ PNode.nil →
      ((pr_itor_prev ⟨tr, some loc⟩).node = none → (loc_before loc).tail = []) ∧
      (∀ loc', (pr_itor_prev ⟨tr, some loc⟩).node = some loc' →
        loc_before loc' = (loc_before loc).tail ∧ loc'.2 ≠ PNode.nil)) := by
  refine ⟨rfl, ?_, ?_, ⟨rfl, rfl⟩, ?_, ?_⟩
  · intro ht
    cases t with
    | nil => exact absurd rfl ht
    | node l k d w r =>
      have hmin := loc_after_min (.node l k d w r) .top
      rcases hm : node_min_loc .top (.node l k d w r) with ⟨c0, f0⟩
      cases f0 with
      | nil =>
        have hfoc := min_loc_focus (t := .node l k d w r) (by simp) .top
        rw [hm] at hfoc
        exact absurd rfl hfoc
      | node l0 k0 d0 w0 r0 =>
        rw [hm] at hmin
        rw [loc_after] at hmin
        simp only [ctx_after, List.append_nil] at hmin
        have hkey : pr_itor_key (pr_itor_new (.node l k d w r)) = k0 := by
          rw [pr_itor_new, pr_itor_first]
          simp only
          rw [hm]
          rfl
        refine ⟨by simp [pr_itor_new, pr_itor_first, pr_itor_valid], ?_, ?_⟩
        · rw [hkey, keys, ← hmin]
          simp
        · intro x hx
          rw [hkey]
          have hp : (keys (.node l k d w r)).Pairwise (· < ·) := bst_iff_pairwise.mp hb
          rw [keys, ← hmin] at hp hx
          simp only [List.map_cons] at hp hx
          exact pairwise_head_min hp x hx
  · intro i hi
    constructor
    · rw [pr_itor_next, hi]
    · rw [pr_itor_prev, hi]
  · intro tr loc hf
    obtain ⟨c, f⟩ := loc
    cases f with
    | nil => exact absurd rfl hf
    | node l k d w r =>
      have hnn : (pr_itor_next ⟨tr, some (c, PNode.node l k d w r)⟩).node
          = node_next_loc (c, .node l k d w r) := rfl
      constructor
      · intro hnone
        rw [hnn] at hnone
        rw [loc_after, List.tail_cons]
        exact node_next_loc_after.1 hnone
      · intro loc' hsome
        rw [hnn] at hsome
        obtain ⟨h1, h2⟩ := node_next_loc_after.2 loc' hsome
        refine ⟨?_, h2⟩
        rw [h1, loc_after, List.tail_cons]
  · intro tr loc hf
    obtain ⟨c, f⟩ := loc
    cases f with
    | nil => exact absurd rfl hf
    | node l k d w r =>
      have hnn : (pr_itor_prev ⟨tr, some (c, PNode.node l k d w r)⟩).node
          = node_prev_loc (c, .node l k d w r) := rfl
      constructor
      · intro hnone
        rw [hnn] at hnone
        rw [loc_before, List.tail_cons]
        exact node_prev_loc_before.1 hnone
      · intro loc' hsome
        rw [hnn] at hsome
        obtain ⟨h1, h2⟩ := node_prev_loc_before.2 loc' hsome
        refine ⟨?_, h2⟩
        rw [h1, loc_before, List.tail_cons]

/-- Claim C8 at a concrete one-node tree: a fresh cursor is valid and sits
at the minimum stored key. -/
theorem C8_witness :
    pr_itor_valid (pr_itor_new (PNode.node .nil 5 1 2 .nil)) = true ∧
    pr_itor_key (pr_itor_new (PNode.node .nil 5 1 2 .nil))
      ∈ keys (PNode.node .nil 5 1 2 .nil) ∧
    (∀ x ∈ keys (PNode.node .nil 5 1 2 .nil),
      pr_itor_key (pr_itor_new (PNode.node .nil 5 1 2 .nil)) ≤ x) :=
  (C8_cursor_positioning (by decide)).2.1 (by decide)

/-- Claim C9: tree creation never fails for lack of a comparator — with
allocation succeeding it returns a tree whatever comparator argument is
passed, and when the caller passes a null comparator the created tree
carries `dict_ptr_cmp`, which orders keys by their numeric address: below,
above and equal addresses map to -1, 1 and 0.  (`dict_ptr_cmp` is defined in
dict.c, outside this tree's src/, and is modelled from the spec.) -/
theorem C9_null_comparator_fallback (key_cmp : Option (Nat → Nat → Int))
    (a b : Nat) :
    (pr_tree_new key_cmp true).isSome = true ∧
    (∀ tr ∈ pr_tree_new none true,
      tr.key_cmp = dict_ptr_cmp ∧ tr.root = PNode.nil ∧ tr.count = 0) ∧
    (dict_ptr_cmp a b < 0 ↔ a < b) ∧
    (dict_ptr_cmp a b > 0 ↔ b < a) ∧
    (dict_ptr_cmp a b = 0 ↔ a = b) := by
  refine ⟨rfl, ?_, dcmp_lt, dcmp_gt, dcmp_eq_zero⟩
  intro tr htr
  rw [Option.mem_def] at htr
  have hval : pr_tree_new none true =
      some (⟨.nil, 0, dict_ptr_cmp⟩ : pr_tree_full) := rfl
  rw [hval] at htr
  have h2 := (Option.some_inj.mp htr).symm
  subst h2
  exact ⟨rfl, rfl, rfl⟩

/-- Claim C10: the absent marker of search and of cursor key/value reads is
the null pointer 0, and search returns the stored value itself on a hit —
so a key stored with the null value is indistinguishable through search from
an absent key, while probe tells them apart (0 = found, 1 = inserted) and an
unbound cursor reads null for both key and value. -/
theorem C10_null_datum_ambiguity {t : PNode} (hb : bst t = true) (key v : Nat) :
    (key ∉ keys t → search_node key t = 0) ∧
    (∀ d, (key, d) ∈ inorder t → search_node key t = d) ∧
    ((key, 0) ∈ inorder t → search_node key t = search_node key PNode.nil) ∧
    ((key, 0) ∈ inorder t → (probe_go key v true t).2.1 = 0) ∧
    (key ∉ keys t → (probe_go key v true t).2.1 = 1) ∧
    (∀ i : pr_itor, i.node = none → pr_itor_key i = 0 ∧ pr_itor_data i = 0) := by
  refine ⟨fun hk => search_absent hk, fun d hd => search_present hb hd,
    ?_, ?_, ?_, ?_⟩
  · intro h0
    rw [search_present hb h0]
    rfl
  · intro h0
    rw [probe_present hb h0]
  · intro hk
    rw [probe_absent hk]
    simp
  · intro i hi
    obtain ⟨tr, nd⟩ := i
    cases nd with
    | none => exact ⟨rfl, rfl⟩
    | some loc => exact Option.noConfusion hi

/-- Claim C10 at a concrete tree storing key 5 with the null value 0:
search cannot tell it from absence, probe can. -/
theorem C10_witness :
    search_node 5 (PNode.node .nil 5 0 2 .nil) = search_node 5 PNode.nil ∧
    (probe_go 5 9 true (PNode.node .nil 5 0 2 .nil)).2.1 = 0 ∧
    (probe_go 6 9 true (PNode.node .nil 5 0 2 .nil)).2.1 = 1 :=
  ⟨(C10_null_datum_ambiguity (by decide) 5 9).2.2.1 (by decide),
   (C10_null_datum_ambiguity (by decide) 5 9).2.2.2.1 (by decide),
   (C10_null_datum_ambiguity (by decide) 6 9).2.2.2.2.1 (by decide)⟩

end PrTree

